import Mathlib

/-!
# Position mapping, search and line transforms of the `ote::TextEdit` view

A shallow embedding of `src/ui/ote/textedit.cpp`.  The editor sits on top of the
Qt text document; the parts of Qt the embedded functions call are modelled here
after Qt's documented behaviour:

* a `QChar` is one UTF-16 code unit, given by its numeric value, and a `QString`
  is the list of its code units;
* a `QTextDocument` is its list of blocks (lines), each stored without its
  terminator; a block's `length` counts the terminator, its `position` is the
  offset of its first character;
* an invalid `QTextBlock` reports position 0 and length 0, a null `QTextCursor`
  reports -1 for its position and selection bounds;
* `QTextCursor::setPosition` ignores a position outside the document;
* `QTextCursor::selectedText` gives the characters of the buffer as they are,
  with U+2029 for every line break; `QTextDocument::toPlainText` gives a line
  feed for every line break, U+2028, U+FDD0 and U+FDD1 and a space for every
  U+00A0;
* `QChar::isSpace`, `QString::indexOf`, `splitRef`, `mid`, `chop`, `trimmed` and
  the constructor `QString(n, ch)` follow the Qt reference;
* the two overloads of `QTextDocument::find` are parameters of `TextEdit::find`
  (`DocumentSearch`): nothing is assumed about them unless a theorem says so;
  `qtSearch` gives both for the plain substring search and for a small
  fragment of the regular expressions (literal characters, the dot, `\d`,
  escaped special characters).

The fold model works on the per-block state (`isVisible()`, `lineCount()`, the
line count of the layout) with the queries of the highlighting collaborator as
parameters (`Highlighter`).  The viewport functions take the per-block geometry
as input, in whole pixels.  The block operations (`moveSelectedBlocksUp`,
`moveSelectedBlocksDown`, `duplicateSelectedBlocks`, `deleteSelectedBlocks`) act
on the plain text and on
cursors attached to the document: after every edit the document moves each
attached cursor as `QTextCursor` documents it (an insertion at the offset of a
cursor pushes the cursor behind the inserted text).  Signal slots and undo
grouping are left out.

The whole-buffer transforms (`convertLeadingWhitespaceToTabs`,
`convertLeadingWhitespaceToSpaces`, `trimWhitespace`) are embedded as functions
from the plain text they read with `toPlainText()` to the text `final` they
write over the whole buffer; a line of a text is a piece between two line
feeds.

C++ `int` values are `Int`; sizes and indices that the code never lets go
negative are `Nat`.  Offsets, lengths and indices are bounded by the size of a
buffer held in memory, and their arithmetic is exact.  The column count of
`getLeadingWSLength` grows with the tab width, which is any `int`: its sums and
differences are taken modulo 2^32 (`wrapInt`).

Definitions whose comment starts with "Specification:" are written from the
specification's words, to be compared with the embedded code; all other
definitions follow the source or model Qt.
-/

namespace ote

/-! ## Qt strings -/

/-- One UTF-16 code unit, by its numeric value. -/
abbrev QChar := Nat

/-- A string of UTF-16 code units. -/
abbrev QString := List QChar

/-- The code units of a string literal (characters of the basic plane). -/
def qstr (s : String) : QString := s.toList.map Char.toNat

/-- Code unit of the space character. -/
def chSpace : QChar := 32

/-- Code unit of the line feed, the line terminator of the plain text. -/
def chNewline : QChar := 10

/-- Code unit of the paragraph separator U+2029, which stands for a line break
in the text a cursor returns as selected. -/
def chParagraphSeparator : QChar := 0x2029

/-- The Unicode separators (categories Zs, Zl, Zp) beyond ASCII. -/
def QChar.isSpace_helper (c : QChar) : Bool :=
  c == 0x00A0 || c == 0x1680 || (0x2000 ≤ c && c ≤ 0x200A) || c == 0x2028 || c == 0x2029
    || c == 0x202F || c == 0x205F || c == 0x3000

/-- The method `QChar::isSpace`: the space, the controls U+0009..U+000D, U+0085,
U+00A0 and every Unicode separator. -/
def QChar.isSpace (c : QChar) : Bool :=
  c == 0x20 || (0x09 ≤ c && c ≤ 0x0d)
    || (decide (c > 127) && (c == 0x85 || c == 0xa0 || QChar.isSpace_helper c))

/-- The method `QString::trimmed`: the string without the white space at its
start and at its end. -/
def QString.trimmed (s : QString) : QString :=
  (((s.dropWhile QChar.isSpace).reverse).dropWhile QChar.isSpace).reverse

/-! ## The document and its blocks -/

/-- The text document, as the list of its blocks (lines) without terminators. -/
structure QTextDocument where
  blocks : List QString
deriving DecidableEq, Repr

/-- A block handle as `QTextDocument::findBlockByNumber` returns it. -/
structure QTextBlock where
  isValid : Bool
  blockNumber : Int
  position : Int
  length : Int
deriving DecidableEq, Repr

/-- The invalid block: `position()` and `length()` both report 0. -/
def QTextBlock.invalid : QTextBlock :=
  { isValid := false, blockNumber := -1, position := 0, length := 0 }

/-- Number of blocks (`blockCount`). -/
def QTextDocument.blockCount (d : QTextDocument) : Int := d.blocks.length

/-- Offset of the first character of block `n`: every earlier block takes its
text plus one terminator. -/
def QTextDocument.blockStart (d : QTextDocument) (n : Nat) : Nat :=
  ((d.blocks.take n).map (fun b => b.length + 1)).sum

/-- Number of characters of the document, terminators included
(`characterCount`). -/
def QTextDocument.characterCount (d : QTextDocument) : Int :=
  ((d.blocks.map (fun b => b.length + 1)).sum : Nat)

/-- Block lookup by line number; an out-of-range number gives the invalid
block. -/
def QTextDocument.findBlockByNumber (d : QTextDocument) (n : Int) : QTextBlock :=
  if 0 ≤ n ∧ n < d.blockCount then
    { isValid := true
      blockNumber := n
      position := d.blockStart n.toNat
      length := ((d.blocks.getD n.toNat []).length : Nat) + 1 }
  else QTextBlock.invalid

/-- Scan for the block holding offset `off`: the block number and the offset
inside the block.  `n` counts the blocks already passed. -/
def findBlockFrom : List QString → Nat → Nat → Nat × Nat
  | [], n, off => (n, off)
  | b :: bs, n, off =>
    if off ≤ b.length then (n, off) else findBlockFrom bs (n + 1) (off - (b.length + 1))

/-- Block number and in-block offset of a document position. -/
def QTextDocument.findBlock (d : QTextDocument) (pos : Nat) : Nat × Nat :=
  findBlockFrom d.blocks 0 pos

/-! ## Cursors -/

/-- A line/column position. -/
structure CursorPos where
  line : Int
  column : Int
deriving DecidableEq, Repr

/-- A text cursor: null, or an anchor and a position. -/
inductive QTextCursor where
  | null : QTextCursor
  | cursor (anchor position : Int) : QTextCursor
deriving DecidableEq, Repr

/-- Whether the cursor is null. -/
def QTextCursor.isNull : QTextCursor → Bool
  | .null => true
  | .cursor _ _ => false

/-- The cursor position; -1 for a null cursor. -/
def QTextCursor.position : QTextCursor → Int
  | .null => -1
  | .cursor _ p => p

/-- Start of the selection; -1 for a null cursor. -/
def QTextCursor.selectionStart : QTextCursor → Int
  | .null => -1
  | .cursor a p => min p a

/-- End of the selection; -1 for a null cursor. -/
def QTextCursor.selectionEnd : QTextCursor → Int
  | .null => -1
  | .cursor a p => max p a

/-- The method `QTextCursor::setPosition`: a position outside the document is
ignored; otherwise the position moves, and the anchor with it unless
`keepAnchor`. -/
def QTextCursor.setPosition (d : QTextDocument) (c : QTextCursor) (pos : Int)
    (keepAnchor : Bool) : QTextCursor :=
  match c with
  | .null => .null
  | .cursor a p =>
    if pos < 0 ∨ pos ≥ d.characterCount then .cursor a p
    else if keepAnchor then .cursor a pos
    else .cursor pos pos

/-! ## The editor -/

/-- The state of the editor the embedded functions read and write.  The
editor's own text cursor is never null, so it is kept as its anchor and
position. -/
structure TextEdit where
  document : QTextDocument
  anchor : Int
  position : Int
  m_findTermSelected : Bool
deriving DecidableEq, Repr

/-- The editor's text cursor (`textCursor()`). -/
def TextEdit.textCursor (e : TextEdit) : QTextCursor := .cursor e.anchor e.position

/-- Install a cursor as the editor's text cursor (`setTextCursor`); the code
only ever installs a cursor that is not null. -/
def TextEdit.setTextCursor (e : TextEdit) (c : QTextCursor) : TextEdit :=
  match c with
  | .null => e
  | .cursor a p => { e with anchor := a, position := p }

/-- Embedding of `TextEdit::cursorPosToAbsolutePos`. -/
def TextEdit.cursorPosToAbsolutePos (e : TextEdit) (pos : CursorPos) : Int :=
  let block := e.document.findBlockByNumber pos.line
  let col := max 0 (min pos.column (block.length - 1))
  block.position + col

/-- Embedding of `TextEdit::setAbsoluteCursorPosition`. -/
def TextEdit.setAbsoluteCursorPosition (e : TextEdit) (pos : Int) : TextEdit :=
  let c := e.textCursor
  let c := c.setPosition e.document pos false
  e.setTextCursor c

/-- Embedding of `TextEdit::setCursorPosition`. -/
def TextEdit.setCursorPosition (e : TextEdit) (pos : CursorPos) : TextEdit :=
  e.setAbsoluteCursorPosition (e.cursorPosToAbsolutePos pos)

/-- Embedding of `TextEdit::getCursorPosition`: block number and position in
block of the text cursor. -/
def TextEdit.getCursorPosition (e : TextEdit) : CursorPos :=
  let c := e.textCursor
  let bp := e.document.findBlock c.position.toNat
  { line := bp.1, column := bp.2 }

/-- The position mapper's `toOffset`: `cursorPosToAbsolutePos`. -/
def TextEdit.toOffset (e : TextEdit) (pos : CursorPos) : Int :=
  e.cursorPosToAbsolutePos pos

/-- The position mapper's `toCursorPos`: move the cursor to the offset
(`setAbsoluteCursorPosition`) and read it back (`getCursorPosition`). -/
def TextEdit.toCursorPos (e : TextEdit) (offset : Int) : CursorPos :=
  (e.setAbsoluteCursorPosition offset).getCursorPosition

/-- Text of line `n` of the editor's document (empty when there is no such
line). -/
def TextEdit.lineText (e : TextEdit) (n : Int) : QString :=
  e.document.blocks.getD n.toNat []

/-- Specification: the column clamp for a line whose reported length (text
plus terminator) is `lineLength`, clamp to `[0, max(0, lineLength-1)]`. -/
def clampColumn (lineLength : Int) (column : Int) : Int :=
  max 0 (min column (max 0 (lineLength - 1)))

/-! ## Plain text -/

/-- Blocks joined by line feeds, no line feed after the last block. -/
def joinLines : List QString → QString
  | [] => []
  | [b] => b
  | b :: b2 :: bs => b ++ chNewline :: joinLines (b2 :: bs)

/-- The characters of the buffer, the blocks joined by line feeds: offset `j`
of this text is position `j` of the document. -/
def QTextDocument.bufferText (d : QTextDocument) : QString := joinLines d.blocks

/-- Code unit of the no-break space U+00A0. -/
def chNbsp : QChar := 0x00a0

/-- Code unit of the line separator U+2028. -/
def chLineSeparator : QChar := 0x2028

/-- What `QTextDocument::toPlainText` makes of one character: the frame markers
U+FDD0 and U+FDD1, the paragraph separator and the line separator become a line
feed, the no-break space becomes a space, every other character stays. -/
def plainTextChar (c : QChar) : QChar :=
  if c = 0xfdd0 ∨ c = 0xfdd1 ∨ c = chParagraphSeparator ∨ c = chLineSeparator then chNewline
  else if c = chNbsp then chSpace
  else c

/-- The method `QTextDocument::toPlainText`: the characters of the document,
block separators as line feeds, each rewritten by `plainTextChar`. -/
def QTextDocument.toPlainText (d : QTextDocument) : QString :=
  d.bufferText.map plainTextChar

/-- Scan for the first offset at which `str` starts in the remaining text; `i`
is the offset of the remaining text. -/
def indexOfScan (str : QString) : QString → Nat → Option Nat
  | [], i => if str = [] then some i else none
  | c :: cs, i => if str <+: c :: cs then some i else indexOfScan str cs (i + 1)

/-- The method `QString::indexOf(str, start)` for `start ≥ 0`: the first offset
at or after `start` where `str` occurs, `none` for Qt's -1. -/
def QString.indexOf (s str : QString) (start : Nat) : Option Nat :=
  if s.length < start then none else indexOfScan str (s.drop start) start

/-- Scan downwards from offset `k` for the last offset at which `str` starts. -/
def lastIndexOfScan (s str : QString) : Nat → Option Nat
  | 0 => if str <+: s then some 0 else none
  | k + 1 => if str <+: s.drop (k + 1) then some (k + 1) else lastIndexOfScan s str k

/-! ## Search -/

/-- Search options (`QTextDocument::FindFlags`). -/
structure FindFlags where
  findBackward : Bool
  findCaseSensitively : Bool
  findWholeWords : Bool
deriving DecidableEq, Repr

/-- The two searches of the Qt document that `TextEdit::find` calls: the
overload taking a `QRegularExpression` built from the term and the overload
taking the term as a plain `QString`.  Each takes the term, the start position
and the flags and returns the cursor selecting the match, or the null cursor. -/
structure DocumentSearch where
  findRegularExpression : QString → Int → FindFlags → QTextCursor
  findString : QString → Int → FindFlags → QTextCursor

/-- First part of `TextEdit::find`, up to the wrapped retry: the cursor `c`
the source holds when it reaches its final test.  `regionEnd` is the region end
after a negative value has been replaced.  (The first value given to `pos` in
the source is overwritten before use and left out.) -/
def TextEdit.findCandidate (e : TextEdit) (q : DocumentSearch) (term : QString)
    (regionStart regionEnd : Int) (flags : FindFlags) (wrapAround : Bool) : QTextCursor :=
  let curr := e.textCursor
  let curr :=
    if curr.position < regionStart then curr.setPosition e.document regionStart false
    else if curr.position > regionEnd then curr.setPosition e.document regionEnd false
    else curr
  let fwd := !flags.findBackward
  let pos := if flags.findBackward = true then curr.selectionStart - 1 else curr.selectionEnd
  let c := q.findRegularExpression term pos flags
  if wrapAround = true then
    if (fwd = true ∧ c.isNull = true) ∨ c.selectionEnd > regionEnd then
      q.findString term regionStart flags
    else if (fwd = false ∧ c.isNull = true) ∨ c.selectionStart < regionStart then
      q.findString term regionEnd flags
    else c
  else c

/-- Embedding of `TextEdit::find(term, regionStart, regionEnd, flags,
wrapAround)`: the result and the editor state after the call. -/
def TextEdit.find (e : TextEdit) (q : DocumentSearch) (term : QString)
    (regionStart regionEnd : Int) (flags : FindFlags) (wrapAround : Bool) : Bool × TextEdit :=
  let regionEnd := if regionEnd < 0 then e.document.characterCount - 1 else regionEnd
  let c := e.findCandidate q term regionStart regionEnd flags wrapAround
  if c.isNull = false ∧ c.selectionEnd ≤ regionEnd ∧ c.selectionStart ≥ regionStart then
    (true, { e.setTextCursor c with m_findTermSelected := true })
  else (false, e)

/-- Specification: the region end of a search, a negative `regionEnd` standing
for the end of the buffer. -/
def effectiveRegionEnd (e : TextEdit) (regionEnd : Int) : Int :=
  if regionEnd < 0 then e.document.characterCount - 1 else regionEnd

/-- The cursor selecting a match of `term` found at an offset, null when there
is none. -/
def matchCursor (term : QString) : Option Nat → QTextCursor
  | none => .null
  | some j => .cursor j (j + term.length)

/-- Reference behaviour of a document search for a term that holds no regular
expression metacharacter and no line break, compared case-sensitively: the
plain substring search over the plain text.  Forward from `pos` the
first occurrence starting at or after `pos`; backward the last occurrence
starting at or before `pos - 1`; null for an empty term, a start outside the
text, or no occurrence. -/
def literalFind (text term : QString) (pos : Int) (flags : FindFlags) : QTextCursor :=
  if term = [] then .null
  else if flags.findBackward = true then
    if pos - 1 < 0 ∨ pos - 1 > text.length then .null
    else matchCursor term (lastIndexOfScan text term (pos - 1).toNat)
  else
    if pos < 0 ∨ pos > text.length then .null
    else matchCursor term (QString.indexOf text term pos.toNat)

/-- A document search in which both overloads are the plain substring search
over the given text: what the Qt document does for terms without regular
expression metacharacters. -/
def literalSearch (text : QString) : DocumentSearch :=
  { findRegularExpression := literalFind text, findString := literalFind text }

/-- One item of a regular expression of the fragment modelled here: a literal
character, the dot, or the digit class. -/
inductive RegexAtom where
  | char (c : QChar)
  | anyChar
  | digit
deriving DecidableEq, Repr

/-- Code unit of the backslash. -/
def chBackslash : QChar := 92

/-- The characters with a special meaning in a regular expression. -/
def isRegexMeta (c : QChar) : Bool := decide (c ∈ qstr "\\^$.[]|()?*+\x7b\x7d")

/-- Reading of a term as a regular expression of the fragment: a sequence of
literal characters, dots, the class `\d`, and escaped special characters.
`none` for every other pattern. -/
def parseRegex : QString → Option (List RegexAtom)
  | [] => some []
  | c :: cs =>
    if c = chBackslash then
      match cs with
      | [] => none
      | d :: ds =>
        if d = 100 then (parseRegex ds).map (fun as => RegexAtom.digit :: as)
        else if isRegexMeta d then (parseRegex ds).map (fun as => RegexAtom.char d :: as)
        else none
    else if c = 46 then (parseRegex cs).map (fun as => RegexAtom.anyChar :: as)
    else if isRegexMeta c then none
    else (parseRegex cs).map (fun as => RegexAtom.char c :: as)

/-- Whether an item matches a character of the text.  A match stays inside one
block, so no item matches the line feed. -/
def RegexAtom.matchesChar : RegexAtom → QChar → Bool
  | .char c, x => x == c && x != chNewline
  | .anyChar, x => x != chNewline
  | .digit, x => decide (48 ≤ x) && decide (x ≤ 57)

/-- Whether the items match at the start of a text. -/
def matchesAtoms : List RegexAtom → QString → Bool
  | [], _ => true
  | _ :: _, [] => false
  | a :: as, x :: xs => a.matchesChar x && matchesAtoms as xs

/-- Whether a text as a whole is a match of the term read as a regular
expression. -/
def regexMatches (term s : QString) : Bool :=
  match parseRegex term with
  | none => false
  | some as => decide (as.length = s.length) && matchesAtoms as s

/-- Scan for the first offset at which the items match in the remaining text;
`i` is the offset of the remaining text. -/
def regexScan (as : List RegexAtom) : QString → Nat → Option Nat
  | [], i => if matchesAtoms as [] then some i else none
  | c :: cs, i => if matchesAtoms as (c :: cs) then some i else regexScan as cs (i + 1)

/-- Scan downwards from offset `k` for the last offset at which the items
match. -/
def regexScanBack (as : List RegexAtom) (text : QString) : Nat → Option Nat
  | 0 => if matchesAtoms as text then some 0 else none
  | k + 1 => if matchesAtoms as (text.drop (k + 1)) then some (k + 1) else regexScanBack as text k

/-- The cursor selecting `n` characters from an offset, null when there is no
offset. -/
def spanCursor (n : Nat) : Option Nat → QTextCursor
  | none => .null
  | some j => .cursor j (j + n)

/-- Reference behaviour of the document search with a `QRegularExpression` for
a pattern of the fragment, compared case-sensitively: forward from `pos` the
first match starting at or after `pos`; backward the last match starting at or
before `pos - 1`; null for a start outside the text, no match, or a pattern
outside the fragment.  (Qt reads a no-break space of the text as a space
before it matches; this is left out.) -/
def regexFind (text term : QString) (pos : Int) (flags : FindFlags) : QTextCursor :=
  match parseRegex term with
  | none => .null
  | some as =>
    if flags.findBackward = true then
      if pos - 1 < 0 ∨ pos - 1 > text.length then .null
      else spanCursor as.length (regexScanBack as text (pos - 1).toNat)
    else
      if pos < 0 ∨ pos > text.length then .null
      else spanCursor as.length (regexScan as (text.drop pos.toNat) pos.toNat)

/-- The document search of Qt on a text: the overload taking a
`QRegularExpression` searches for matches of the expression, the overload
taking a `QString` searches for the term as plain text. -/
def qtSearch (text : QString) : DocumentSearch :=
  { findRegularExpression := regexFind text, findString := literalFind text }

/-- Specification: the text `term` occurs in `text` at offset `j`. -/
def OccursAt (text term : QString) (j : Nat) : Prop := term <+: text.drop j

/-- Specification: offset `j` is the leftmost occurrence of `term` in `text`
that starts at or after offset `s`. -/
def LeftmostFrom (text term : QString) (s j : Nat) : Prop :=
  s ≤ j ∧ OccursAt text term j ∧ ∀ i, s ≤ i → i < j → ¬ OccursAt text term i

/-- Specification: offset `j` is the `k`-th (counting from 0) leftmost
non-overlapping occurrence of `term` in `text`; the first is the leftmost
occurrence of all, the next one is the leftmost that starts at or after the end
of the one before. -/
def KthOccurrence (text term : QString) : Nat → Nat → Prop
  | 0, j => LeftmostFrom text term 0 j
  | k + 1, j => ∃ i, KthOccurrence text term k i ∧ LeftmostFrom text term (i + term.length) j

/-- The editor state after `n` consecutive calls of `find` over the whole
buffer (`regionStart = 0`, `regionEnd = -1`). -/
def TextEdit.findTimes (e : TextEdit) (q : DocumentSearch) (term : QString) (flags : FindFlags)
    (wrapAround : Bool) : Nat → TextEdit
  | 0 => e
  | n + 1 => ((e.findTimes q term flags wrapAround n).find q term 0 (-1) flags wrapAround).2

/-- The forward, case-sensitive search flags. -/
def forwardFlags : FindFlags :=
  { findBackward := false, findCaseSensitively := true, findWholeWords := false }

/-- An editor on a one-line buffer with the cursor at offset 0. -/
def editorOn (text : QString) : TextEdit :=
  { document := { blocks := [text] }, anchor := 0, position := 0, m_findTermSelected := false }

/-- The one-line buffer "7 \d" (a digit, a space, a backslash and the letter d)
with the cursor at offset 1, after the digit. -/
def digitEdit : TextEdit :=
  { document := { blocks := [qstr "7 \\d"] }, anchor := 1, position := 1,
    m_findTermSelected := false }

/-- The buffer "abcabcabc" with the characters 7..9 selected and the term
flag set. -/
def selectedTailEdit : TextEdit :=
  { document := { blocks := [qstr "abcabcabc"] }, anchor := 7, position := 9,
    m_findTermSelected := true }

/-! ## Same-word highlights -/

/-- The text a cursor reports as selected (`selectedText`): the characters of
the buffer between the selection bounds as they are, every line break given as
U+2029. -/
def TextEdit.selectedText (e : TextEdit) : QString :=
  ((e.document.bufferText.drop e.textCursor.selectionStart.toNat).take
      (e.textCursor.selectionEnd - e.textCursor.selectionStart).toNat).map
    (fun c => if c = chNewline then chParagraphSeparator else c)

/-- The loop of `TextEdit::onSelectionChanged`: from offset `j`, take the next
occurrence of `text`, record the cursor selecting it, and resume one past its
start.  Every round moves `j` forward, so `fullText.length + 1` rounds are
enough; `fuel` bounds the rounds. -/
def sameItemsLoop (fullText text : QString) : Nat → Nat → List QTextCursor
  | 0, _ => []
  | fuel + 1, j =>
    match QString.indexOf fullText text j with
    | none => []
    | some j2 =>
      QTextCursor.cursor j2 ((j2 : Int) + text.length) :: sameItemsLoop fullText text fuel (j2 + 1)

/-- Embedding of `TextEdit::onSelectionChanged`: the value the call leaves in
the same-items layer `m_extraSelections[ESSameItems]`, as the list of the
cursors of its entries. -/
def TextEdit.onSelectionChanged (e : TextEdit) : List QTextCursor :=
  let text := e.selectedText
  if text.length < 2 ∨ (QString.trimmed text).isEmpty = true then
    []
  else
    let fullText := e.document.toPlainText
    sameItemsLoop fullText text (fullText.length + 1) 0

/-- Specification: the same-items layer, for every offset of the buffer at which
`text` occurs, in increasing order, the cursor selecting `[j, j + |text|)`. -/
def allOccurrences (fullText text : QString) : List QTextCursor :=
  ((List.range (fullText.length + 1)).filter (fun j => decide (text <+: fullText.drop j))).map
    (fun (j : Nat) => QTextCursor.cursor (j : Int) ((j : Int) + text.length))

/-- Specification: the characters of the buffer as a cursor reports them, every
line break given as U+2029; the selected text is a piece of this text. -/
def TextEdit.cursorText (e : TextEdit) : QString :=
  e.document.bufferText.map (fun c => if c = chNewline then chParagraphSeparator else c)

/-- The one-line buffer "a", U+00A0, "a", U+00A0 with its first two characters
selected. -/
def nbspEdit : TextEdit :=
  { document := { blocks := [[97, 0x00a0, 97, 0x00a0]] }, anchor := 0, position := 2,
    m_findTermSelected := false }

/-- The two-line buffer "ab", "cd" with the characters 1..4 selected: "b", the
line break and "c". -/
def lineBreakEdit : TextEdit :=
  { document := { blocks := [qstr "ab", qstr "cd"] }, anchor := 1, position := 4,
    m_findTermSelected := false }

/-- The buffer "aaa" with its first two characters selected. -/
def aaaEdit : TextEdit :=
  { document := { blocks := [qstr "aaa"] }, anchor := 0, position := 2,
    m_findTermSelected := false }

/-! ## Line transforms -/

/-- The method `QString::splitRef(sep)` (empty parts kept): the pieces between
the separators; a text without separator is one piece. -/
def QString.splitRef (sep : QChar) : QString → List QString
  | [] => [[]]
  | c :: cs =>
    if c = sep then [] :: QString.splitRef sep cs
    else (c :: (QString.splitRef sep cs).headD []) :: (QString.splitRef sep cs).tail

/-- The buffer text "abcabcabc". -/
def abcText : QString := qstr "abcabcabc"

/-- The search term "abc". -/
def abcTerm : QString := qstr "abc"

/-- The two-line buffer "ab", "cde" with the cursor at offset 0. -/
def twoLineEdit : TextEdit :=
  { document := { blocks := [qstr "ab", qstr "cde"] }, anchor := 0, position := 0,
    m_findTermSelected := false }

/-! ## Folding -/

/-- What the fold model reads and writes of one block: `isVisible()`,
`lineCount()`, and the line count of the block's layout
(`layout()->lineCount()`), its natural line count. -/
structure BlockState where
  isVisible : Bool
  lineCount : Int
  layoutLineCount : Int
deriving DecidableEq, Repr

/-- A block handle for the fold model: the number of a block, or `none` for an
invalid block.  A handle whose number is not below the block count is invalid
too. -/
abbrev BlockRef := Option Nat

/-- The method `QTextBlock::isValid` over the blocks whose states are given. -/
def blockIsValid (states : List BlockState) : BlockRef → Bool
  | none => false
  | some k => decide (k < states.length)

/-- The method `QTextBlock::next`: the following block, invalid after the last
block and after an invalid block. -/
def blockNext (states : List BlockState) : BlockRef → BlockRef
  | none => none
  | some k => if k < states.length ∧ k + 1 < states.length then some (k + 1) else none

/-- The method `QTextBlock::isVisible`; an invalid block counts as visible, it
is never read by the embedded code. -/
def blockIsVisible (states : List BlockState) : BlockRef → Bool
  | none => true
  | some k => (states.getD k { isVisible := true, lineCount := 0, layoutLineCount := 0 }).isVisible

/-- The highlighting collaborator: whether a block opens a folding region, and
the block that closes the region opened at a block (invalid when there is
none). -/
structure Highlighter where
  startsFoldingRegion : Nat → Bool
  findFoldingRegionEnd : Nat → BlockRef

/-- Embedding of `TextEdit::findClosingBlock`: the collaborator's answer; for
an invalid block the collaborator answers with an invalid block. -/
def findClosingBlock (h : Highlighter) : BlockRef → BlockRef
  | none => none
  | some k => h.findFoldingRegionEnd k

/-- Embedding of `TextEdit::isFoldable`: the source returns false, the call of
the collaborator is commented out. -/
def isFoldable (_h : Highlighter) (_block : BlockRef) : Bool := false

/-- Embedding of `TextEdit::isFolded`. -/
def isFolded (states : List BlockState) (block : BlockRef) : Bool :=
  if !blockIsValid states block then false
  else
    let nextBlock := blockNext states block
    if !blockIsValid states nextBlock then false
    else !blockIsVisible states nextBlock

/-- The unfold loop of `toggleFold` over the states from the current block on:
while the block is hidden it is made visible with the line count of its
layout. -/
def unfoldStates : List BlockState → List BlockState
  | [] => []
  | b :: bs =>
    if !b.isVisible then
      { b with isVisible := true, lineCount := b.layoutLineCount } :: unfoldStates bs
    else b :: bs

/-- The fold loop of `toggleFold` over the states from block number `k` on:
until the block is `endBlock` it is hidden with line count 0. -/
def foldStates (endBlock : BlockRef) : Nat → List BlockState → List BlockState
  | _, [] => []
  | k, b :: bs =>
    if some k ≠ endBlock then
      { b with isVisible := false, lineCount := 0 } :: foldStates endBlock (k + 1) bs
    else b :: bs

/-- Run a loop of `toggleFold` from a block on: nothing happens from an invalid
block. -/
def fromBlock (states : List BlockState) (block : BlockRef)
    (loop : Nat → List BlockState → List BlockState) : List BlockState :=
  match block with
  | none => states
  | some k => states.take k ++ loop k (states.drop k)

/-- Embedding of `TextEdit::toggleFold`: the block states after the call. -/
def toggleFold (h : Highlighter) (states : List BlockState) (startBlock : BlockRef) :
    List BlockState :=
  let endBlock := blockNext states (findClosingBlock h startBlock)
  if isFolded states startBlock then
    fromBlock states (blockNext states startBlock) (fun _ => unfoldStates)
  else
    fromBlock states (blockNext states startBlock) (foldStates endBlock)

/-- Embedding of `TextEditGutter::mouseReleaseEvent`: the block states after a
click, given whether the click lies in the fold marker column and the block
`blockAtPosition` returns for it. -/
def mouseReleaseEvent (h : Highlighter) (states : List BlockState) (inMarkerColumn : Bool)
    (block : BlockRef) : List BlockState :=
  if inMarkerColumn then
    if !blockIsValid states block || !isFoldable h block then states
    else toggleFold h states block
  else states

/-- Specification: a block state set to `Hidden` with line count 0. -/
def hiddenState (b : BlockState) : BlockState := { b with isVisible := false, lineCount := 0 }

/-- A visible block with one line. -/
def visibleLine : BlockState := { isVisible := true, lineCount := 1, layoutLineCount := 1 }

/-- A hidden block whose layout has one line. -/
def hiddenLine : BlockState := { isVisible := false, lineCount := 0, layoutLineCount := 1 }

/-- A collaborator that finds no closing block and reports no region. -/
def noRegions : Highlighter :=
  { startsFoldingRegion := fun _ => false, findFoldingRegionEnd := fun _ => none }

/-- A collaborator for which block 0 opens a region closed by block `e`. -/
def regionFromZero (e : Nat) : Highlighter :=
  { startsFoldingRegion := fun k => decide (k = 0)
    findFoldingRegionEnd := fun k => if k = 0 then some e else none }

/-! ## Viewport -/

/-- The vertical extent of a `QRect` of integer pixels; `bottom()` is
`top() + height() - 1`. -/
structure QRect where
  top : Int
  height : Int
deriving DecidableEq, Repr

/-- The method `QRect::bottom`. -/
def QRect.bottom (r : QRect) : Int := r.top + r.height - 1

/-- A block with its rectangle in viewport coordinates. -/
structure BlockData where
  block : Nat
  translatedRect : QRect
deriving DecidableEq, Repr

/-- Embedding of the loop of `TextEdit::getBlocksInRect`, over the blocks from
the first visible block on, each given with the rectangle
`blockBoundingGeometry(block).translated(contentOffset()).toRect()`. -/
def getBlocksInRect (rect : QRect) : List BlockData → List BlockData
  | [] => []
  | b :: bs =>
    if b.translatedRect.bottom ≥ rect.top then
      if b.translatedRect.top > rect.bottom then [b]
      else b :: getBlocksInRect rect bs
    else getBlocksInRect rect bs

/-- The loop of `TextEdit::blockAtPosition`: `heights` are the heights of the
current block and of the blocks after it, `top` the accumulated top of the
current block. -/
def blockAtPositionLoop (y : Int) : List Int → Nat → Int → BlockRef
  | [], _, _ => none
  | height :: heights, block, top =>
    let bottom := top + height
    if top ≤ y ∧ y ≤ bottom then some block
    else blockAtPositionLoop y heights (block + 1) bottom

/-- Embedding of `TextEdit::blockAtPosition`: `firstVisibleBlock` is the number
of the first visible block, `top` the top of its translated rectangle, and
`heights` the heights, in whole pixels, of that block and of the blocks after
it (none when there is no valid first visible block). -/
def blockAtPosition (firstVisibleBlock : Nat) (top : Int) (heights : List Int) (y : Int) :
    BlockRef :=
  blockAtPositionLoop y heights firstVisibleBlock top

/-! ## Block operations -/

/-- A cursor attached to the document, by its anchor and position as offsets
into the plain text (a block separator counts one character).  The document
keeps every attached cursor up to date when its text changes. -/
structure LiveCursor where
  anchor : Nat
  position : Nat
deriving DecidableEq, Repr

/-- The method `QTextCursor::selectionStart`. -/
def LiveCursor.selectionStart (c : LiveCursor) : Nat := min c.position c.anchor

/-- The method `QTextCursor::selectionEnd`. -/
def LiveCursor.selectionEnd (c : LiveCursor) : Nat := max c.position c.anchor

/-- The method `QTextCursor::setPosition` on a document with plain text `t`: a
position past the end of the document is ignored. -/
def LiveCursor.setPosition (t : QString) (c : LiveCursor) (pos : Nat) (keepAnchor : Bool) :
    LiveCursor :=
  if pos > t.length then c
  else if keepAnchor then { c with position := pos }
  else { anchor := pos, position := pos }

/-- The move operations of `QTextCursor` the block operations use. -/
inductive MoveOperation where
  | StartOfBlock
  | EndOfBlock
  | NextBlock
  | PreviousBlock
deriving DecidableEq, Repr

/-- Offset of the first character of the block that holds offset `pos`. -/
def startOfBlock (t : QString) (pos : Nat) : Nat :=
  pos - ((t.take pos).reverse.takeWhile (fun c => c != chNewline)).length

/-- Offset of the end of the text of the block that holds offset `pos`, right
before its separator. -/
def endOfBlock (t : QString) (pos : Nat) : Nat :=
  pos + ((t.drop pos).takeWhile (fun c => c != chNewline)).length

/-- The position a move operation leads to, `none` when there is no block to
move to. -/
def moveTarget (t : QString) (pos : Nat) : MoveOperation → Option Nat
  | .StartOfBlock => some (startOfBlock t pos)
  | .EndOfBlock => some (endOfBlock t pos)
  | .NextBlock => if endOfBlock t pos < t.length then some (endOfBlock t pos + 1) else none
  | .PreviousBlock =>
    if startOfBlock t pos = 0 then none
    else some (startOfBlock t (startOfBlock t pos - 1))

/-- The method `QTextCursor::movePosition(op, mode)`: whether the move was made,
and the cursor afterwards; a move that cannot be made leaves the cursor as it
is. -/
def LiveCursor.movePosition (t : QString) (c : LiveCursor) (op : MoveOperation)
    (keepAnchor : Bool) : Bool × LiveCursor :=
  match moveTarget t c.position op with
  | none => (false, c)
  | some p => (true, if keepAnchor then { c with position := p } else { anchor := p, position := p })

/-- What the document does to an attached cursor when `n` characters are
inserted at offset `pos`: a position at or after `pos` moves by `n`, and so
does an anchor at or after `pos`. -/
def LiveCursor.adjustInsert (pos n : Nat) (c : LiveCursor) : LiveCursor :=
  { anchor := if c.anchor ≥ pos then c.anchor + n else c.anchor
    position := if c.position < pos then c.position else c.position + n }

/-- What the document does to an attached cursor when the `n` characters from
offset `pos` on are removed: an offset inside the removed range moves to `pos`,
an offset after it moves back by `n`. -/
def LiveCursor.adjustRemove (pos n : Nat) (c : LiveCursor) : LiveCursor :=
  { anchor := if c.anchor ≥ pos then (if c.anchor < pos + n then pos else c.anchor - n)
              else c.anchor
    position := if c.position < pos then c.position
                else if c.position < pos + n then pos else c.position - n }

/-- The outcome of an edit made through a cursor: the new plain text, the
editing cursor afterwards, and what the edit does to every other cursor
attached to the document. -/
structure Edited where
  text : QString
  cursor : LiveCursor
  others : LiveCursor → LiveCursor

/-- The method `QTextCursor::removeSelectedText`. -/
def removeSelectedText (t : QString) (c : LiveCursor) : Edited :=
  if c.anchor = c.position then { text := t, cursor := c, others := id }
  else
    { text := t.take c.selectionStart ++ t.drop c.selectionEnd
      cursor := { anchor := c.selectionStart, position := c.selectionStart }
      others := LiveCursor.adjustRemove c.selectionStart (c.selectionEnd - c.selectionStart) }

/-- Insertion of the characters `s` at a cursor, after removal of its
selection: the editing cursor ends after the inserted characters. -/
def insertAtCursor (t : QString) (c : LiveCursor) (s : QString) : Edited :=
  let r := removeSelectedText t c
  let p := r.cursor.position
  { text := r.text.take p ++ s ++ r.text.drop p
    cursor := { anchor := p + s.length, position := p + s.length }
    others := fun o => LiveCursor.adjustInsert p s.length (r.others o) }

/-- The method `QTextCursor::insertText`: every paragraph separator U+2029 of
the text starts a new block, so it enters the plain text as a line feed. -/
def insertText (t : QString) (c : LiveCursor) (text : QString) : Edited :=
  insertAtCursor t c (text.map (fun ch => if ch = chParagraphSeparator then chNewline else ch))

/-- The method `QTextCursor::insertBlock`: a block separator is inserted at the
cursor. -/
def insertBlock (t : QString) (c : LiveCursor) : Edited :=
  insertAtCursor t c [chNewline]

/-- Whether a code unit is a low surrogate. -/
def QChar.isLowSurrogate (c : QChar) : Bool := 0xDC00 ≤ c && c ≤ 0xDFFF

/-- Whether a code unit is a high surrogate. -/
def QChar.isHighSurrogate (c : QChar) : Bool := 0xD800 ≤ c && c ≤ 0xDBFF

/-- The method `QTextCursor::deletePreviousChar`: a selection is removed;
without one the character before the cursor is removed, both halves of a
surrogate pair at once; nothing happens at offset 0. -/
def deletePreviousChar (t : QString) (c : LiveCursor) : Edited :=
  if c.anchor ≠ c.position then removeSelectedText t c
  else if c.position < 1 then { text := t, cursor := c, others := id }
  else
    let n : Nat :=
      if c.position ≥ 2 ∧ QChar.isLowSurrogate (t.getD (c.position - 1) 0) = true
          ∧ QChar.isHighSurrogate (t.getD (c.position - 2) 0) = true then 2 else 1
    removeSelectedText t { anchor := c.position - n, position := c.position }

/-- The method `QTextCursor::selectedText` on the plain text: the selected
characters, every line break given as U+2029. -/
def selectedText (t : QString) (c : LiveCursor) : QString :=
  ((t.drop c.selectionStart).take (c.selectionEnd - c.selectionStart)).map
    (fun ch => if ch = chNewline then chParagraphSeparator else ch)

/-- What the block operations read and write of the editor: the plain text of
the document and the editor's text cursor. -/
structure EditBuffer where
  text : QString
  cursor : LiveCursor
deriving DecidableEq, Repr

/-- The lines of a buffer. -/
def EditBuffer.lines (b : EditBuffer) : List QString := QString.splitRef chNewline b.text

/-- Embedding of `TextEdit::moveSelectedBlocksUp`.  `tc` is the editor's text
cursor, which `textCursor()` copies. -/
def moveSelectedBlocksUp (b : EditBuffer) : EditBuffer :=
  let t := b.text
  let tc := b.cursor
  let lineCursor := tc
  let lineCursor := lineCursor.setPosition t lineCursor.selectionStart false
  let r1 := lineCursor.movePosition t .PreviousBlock false
  let success := r1.1
  let lineCursor := r1.2
  let r2 := lineCursor.movePosition t .NextBlock true
  let success := success && r2.1
  let lineCursor := r2.2
  if !success then b
  else
    let insertCursor := tc
    let insertCursor := insertCursor.setPosition t insertCursor.selectionEnd false
    let r3 := insertCursor.movePosition t .NextBlock false
    let success := r3.1
    let insertCursor := r3.2
    let s : QString × LiveCursor × LiveCursor × LiveCursor :=
      if !success then
        let insertCursor := (insertCursor.movePosition t .EndOfBlock false).2
        let ed := insertBlock t insertCursor
        (ed.text, ed.cursor, ed.others lineCursor, ed.others tc)
      else (t, insertCursor, lineCursor, tc)
    let t := s.1
    let insertCursor := s.2.1
    let lineCursor := s.2.2.1
    let tc := s.2.2.2
    let text := selectedText t lineCursor
    let ed := removeSelectedText t lineCursor
    let t := ed.text
    let insertCursor := ed.others insertCursor
    let tc := ed.others tc
    let ed := insertText t insertCursor text
    { text := ed.text, cursor := ed.others tc }

/-- Embedding of `TextEdit::moveSelectedBlocksDown`.  `tc` is the editor's text
cursor, which `textCursor()` copies; both moves to the next block are made,
`&=` never skips the second. -/
def moveSelectedBlocksDown (b : EditBuffer) : EditBuffer :=
  let t := b.text
  let tc := b.cursor
  let c := tc
  let c := c.setPosition t c.selectionEnd false
  let r1 := c.movePosition t .NextBlock false
  let success := r1.1
  let c := r1.2
  let r2 := c.movePosition t .NextBlock true
  let success := success && r2.1
  let c := r2.2
  if !success then b
  else
    let text := selectedText t c
    let ed := removeSelectedText t c
    let t := ed.text
    let tc := ed.others tc
    let c := tc
    let c := c.setPosition t c.selectionStart false
    let c := (c.movePosition t .StartOfBlock false).2
    let ed := insertText t c text
    { text := ed.text, cursor := ed.others tc }

/-- Embedding of `TextEdit::duplicateSelectedBlocks`. -/
def duplicateSelectedBlocks (b : EditBuffer) : EditBuffer :=
  let t := b.text
  let tc := b.cursor
  let c := tc
  let blockCursor := c
  let blockCursor := blockCursor.setPosition t c.selectionStart false
  let blockCursor := (blockCursor.movePosition t .StartOfBlock false).2
  let blockCursor := blockCursor.setPosition t c.selectionEnd true
  let r := blockCursor.movePosition t .NextBlock true
  let success := r.1
  let blockCursor := r.2
  let s : QString × LiveCursor × LiveCursor :=
    if !success then
      let v := blockCursor
      let v := (v.movePosition t .EndOfBlock false).2
      let ed := insertBlock t v
      let blockCursor := ed.others blockCursor
      let tc := ed.others tc
      let blockCursor := (blockCursor.movePosition ed.text .NextBlock true).2
      (ed.text, blockCursor, tc)
    else (t, blockCursor, tc)
  let t := s.1
  let blockCursor := s.2.1
  let tc := s.2.2
  let text := selectedText t blockCursor
  let c := tc
  let c := c.setPosition t c.selectionStart false
  let c := (c.movePosition t .StartOfBlock false).2
  let ed := insertText t c text
  let t := ed.text
  let c := ed.cursor
  let tc := ed.others tc
  if !success then
    let ed := deletePreviousChar t c
    { text := ed.text, cursor := ed.others tc }
  else { text := t, cursor := tc }

/-- Embedding of `TextEdit::deleteSelectedBlocks`. -/
def deleteSelectedBlocks (b : EditBuffer) : EditBuffer :=
  let t := b.text
  let tc := b.cursor
  let c := tc
  let ce := c
  let ce := ce.setPosition t c.selectionStart false
  let ce := (ce.movePosition t .StartOfBlock false).2
  let ce := ce.setPosition t c.selectionEnd true
  let r := ce.movePosition t .NextBlock true
  let success := r.1
  let ce := r.2
  let ce := if !success then (ce.movePosition t .EndOfBlock true).2 else ce
  let ed := removeSelectedText t ce
  let t := ed.text
  let ce := ed.cursor
  let tc := ed.others tc
  if !success then
    let ed := deletePreviousChar t ce
    { text := ed.text, cursor := ed.others tc }
  else { text := t, cursor := tc }

/-- The lines of a list, each followed by a line feed: the plain text before
the first character of the block that comes after them. -/
def terminated (ls : List QString) : QString :=
  (ls.map (fun l => l ++ [chNewline])).flatten

/-! ## Position mapper: lemmas -/

theorem findBlockFrom_blockStart (bs : List QString) :
    ∀ (k n c : Nat), n < bs.length → c ≤ (bs.getD n []).length →
      findBlockFrom bs k (((bs.take n).map (fun b => b.length + 1)).sum + c) = (k + n, c) := by
  induction bs with
  | nil => intro k n c hn; simp at hn
  | cons b bs ih =>
    intro k n c hn hc
    cases n with
    | zero =>
      simp only [List.take_zero, List.map_nil, List.sum_nil, Nat.zero_add, Nat.add_zero]
      simp only [List.getD_cons_zero] at hc
      simp [findBlockFrom, hc]
    | succ n =>
      have hn2 : n < bs.length := by simpa using hn
      have hc2 : c ≤ (bs.getD n []).length := by simpa using hc
      have h1 : ¬ (b.length + 1 + ((bs.take n).map (fun b => b.length + 1)).sum + c ≤ b.length) := by
        omega
      have h2 : b.length + 1 + ((bs.take n).map (fun b => b.length + 1)).sum + c - (b.length + 1)
          = ((bs.take n).map (fun b => b.length + 1)).sum + c := by omega
      simp only [List.take_succ_cons, List.map_cons, List.sum_cons, findBlockFrom, h1, if_false, h2]
      rw [ih (k + 1) n c hn2 hc2]
      congr 1
      omega

theorem blockStart_add_lt_characterCount (d : QTextDocument) (n c : Nat)
    (hn : n < d.blocks.length) (hc : c ≤ (d.blocks.getD n []).length) :
    (d.blockStart n + c : Int) < d.characterCount := by
  unfold QTextDocument.blockStart QTextDocument.characterCount
  have key : ∀ (bs : List QString) (n : Nat), n < bs.length → c ≤ (bs.getD n []).length →
      ((bs.take n).map (fun b => b.length + 1)).sum + c < (bs.map (fun b => b.length + 1)).sum := by
    intro bs
    induction bs with
    | nil => intro n hn; simp at hn
    | cons b bs ih =>
      intro n hn hc
      cases n with
      | zero =>
        simp only [List.getD_cons_zero] at hc
        simp only [List.take_zero, List.map_nil, List.sum_nil, List.map_cons, List.sum_cons]
        omega
      | succ n =>
        have hn2 : n < bs.length := by simpa using hn
        have hc2 : c ≤ (bs.getD n []).length := by simpa using hc
        have := ih n hn2 hc2
        simp only [List.take_succ_cons, List.map_cons, List.sum_cons]
        omega
  have := key d.blocks n hn hc
  exact_mod_cast this

/-- For a valid line, `cursorPosToAbsolutePos` is the line start plus the
column clamped to the line's text. -/
theorem cursorPosToAbsolutePos_eq (e : TextEdit) (pos : CursorPos)
    (hl : 0 ≤ pos.line) (hu : pos.line < e.document.blockCount) :
    e.cursorPosToAbsolutePos pos
      = (e.document.blockStart pos.line.toNat : Int)
        + max 0 (min pos.column ((e.lineText pos.line).length : Int)) := by
  unfold TextEdit.cursorPosToAbsolutePos QTextDocument.findBlockByNumber TextEdit.lineText
  simp only [hl, hu, and_self, if_true]
  congr 2
  omega

/-- For a valid line and a column inside the line's text, setting the cursor
to the resolved offset and reading it back gives that line and column. -/
theorem toCursorPos_blockStart (e : TextEdit) (line c : Nat)
    (hn : line < e.document.blocks.length) (hc : c ≤ (e.document.blocks.getD line []).length) :
    e.toCursorPos ((e.document.blockStart line : Int) + c) = { line := line, column := c } := by
  have hlt := blockStart_add_lt_characterCount e.document line c hn hc
  have hnn : ¬ ((e.document.blockStart line : Int) + c < 0) := by omega
  have hge : ¬ ((e.document.blockStart line : Int) + c ≥ e.document.characterCount) := by omega
  have hfb := findBlockFrom_blockStart e.document.blocks 0 line c hn hc
  unfold TextEdit.toCursorPos TextEdit.setAbsoluteCursorPosition TextEdit.getCursorPosition
    TextEdit.textCursor QTextCursor.setPosition TextEdit.setTextCursor QTextDocument.findBlock
  simp only [hnn, hge, or_self, if_false, Bool.false_eq_true]
  have hnat : ((e.document.blockStart line : Int) + (c : Int)).toNat
      = ((e.document.blocks.take line).map (fun b => b.length + 1)).sum + c := by
    unfold QTextDocument.blockStart
    omega
  simp only [QTextCursor.position, hnat, hfb, Nat.zero_add]

theorem setAbsoluteCursorPosition_document (e : TextEdit) (off : Int) :
    (e.setAbsoluteCursorPosition off).document = e.document := by
  unfold TextEdit.setAbsoluteCursorPosition TextEdit.textCursor QTextCursor.setPosition
    TextEdit.setTextCursor
  simp only
  split_ifs <;> rfl

/-- Round trip on a valid line, with the clamped column as a natural number. -/
theorem toCursorPos_cursorPosToAbsolutePos (e : TextEdit) (pos : CursorPos)
    (hl : 0 ≤ pos.line) (hu : pos.line < e.document.blockCount) :
    e.toCursorPos (e.cursorPosToAbsolutePos pos)
      = { line := pos.line, column := max 0 (min pos.column ((e.lineText pos.line).length : Int)) } := by
  have hn : pos.line.toNat < e.document.blocks.length := by
    unfold QTextDocument.blockCount at hu
    omega
  have hc : (max 0 (min pos.column ((e.lineText pos.line).length : Int))).toNat
      ≤ (e.document.blocks.getD pos.line.toNat []).length := by
    unfold TextEdit.lineText
    omega
  have h := toCursorPos_blockStart e pos.line.toNat _ hn hc
  rw [cursorPosToAbsolutePos_eq e pos hl hu]
  have e1 : ((max 0 (min pos.column ((e.lineText pos.line).length : Int))).toNat : Int)
      = max 0 (min pos.column ((e.lineText pos.line).length : Int)) := by omega
  have e2 : (pos.line.toNat : Int) = pos.line := by omega
  rw [e1, e2] at h
  exact h

/-! ## Search: lemmas -/

theorem joinLines_length (bs : List QString) (h : bs ≠ []) :
    (joinLines bs).length + 1 = (bs.map (fun b => b.length + 1)).sum := by
  induction bs with
  | nil => exact absurd rfl h
  | cons b bs ih =>
    cases bs with
    | nil => simp [joinLines]
    | cons b2 bs =>
      have := ih (by simp)
      simp only [joinLines, List.length_append, List.length_cons, List.map_cons, List.sum_cons]
        at this ⊢
      omega

theorem characterCount_eq (d : QTextDocument) (h : d.blocks ≠ []) :
    d.characterCount = (d.bufferText.length : Int) + 1 := by
  unfold QTextDocument.characterCount QTextDocument.bufferText
  rw [← joinLines_length d.blocks h]
  push_cast
  rfl

theorem indexOfScan_some (str : QString) :
    ∀ (s : QString) (i j : Nat), indexOfScan str s i = some j →
      ∃ m, j = i + m ∧ m ≤ s.length ∧ str <+: s.drop m ∧ ∀ n, n < m → ¬ str <+: s.drop n := by
  intro s
  induction s with
  | nil =>
    intro i j h
    simp only [indexOfScan] at h
    split_ifs at h with he
    · refine ⟨0, ?_, le_refl _, ?_, ?_⟩
      · simp at h
        omega
      · simp [he]
      · intro n hn
        omega
  | cons c cs ih =>
    intro i j h
    simp only [indexOfScan] at h
    split_ifs at h with hp
    · refine ⟨0, ?_, Nat.zero_le _, ?_, ?_⟩
      · simp at h
        omega
      · simpa using hp
      · intro n hn
        omega
    · obtain ⟨m, hj, hm, hpre, hmin⟩ := ih (i + 1) j h
      refine ⟨m + 1, by omega, by simp; omega, by simpa using hpre, ?_⟩
      intro n hn
      cases n with
      | zero => simpa using hp
      | succ n =>
        have := hmin n (by omega)
        simpa using this

theorem indexOfScan_none (str : QString) :
    ∀ (s : QString) (i : Nat), indexOfScan str s i = none →
      ∀ n, n ≤ s.length → ¬ str <+: s.drop n := by
  intro s
  induction s with
  | nil =>
    intro i h n hn
    simp only [indexOfScan] at h
    split_ifs at h with he
    simp only [List.drop_nil, List.prefix_nil]
    exact he
  | cons c cs ih =>
    intro i h n hn
    simp only [indexOfScan] at h
    split_ifs at h with hp
    cases n with
    | zero => simpa using hp
    | succ n =>
      have := ih (i + 1) h n (by simpa using hn)
      simpa using this

theorem indexOf_some (s str : QString) (k j : Nat) (h : QString.indexOf s str k = some j) :
    j ≤ s.length ∧ LeftmostFrom s str k j := by
  unfold QString.indexOf at h
  split_ifs at h with hk
  obtain ⟨m, hj, hm, hpre, hmin⟩ := indexOfScan_some str (s.drop k) k j h
  simp only [List.length_drop] at hm
  simp only [List.drop_drop] at hpre hmin
  subst hj
  refine ⟨by omega, by omega, ?_, ?_⟩
  · unfold OccursAt
    exact hpre
  · intro i hki hij
    have := hmin (i - k) (by omega)
    unfold OccursAt
    rwa [show k + (i - k) = i by omega] at this

theorem indexOf_none (s str : QString) (k : Nat) (h : QString.indexOf s str k = none) :
    ∀ i, k ≤ i → i ≤ s.length → ¬ OccursAt s str i := by
  intro i hki hi
  unfold QString.indexOf at h
  split_ifs at h with hk
  · omega
  · have := indexOfScan_none str (s.drop k) k h (i - k) (by simp; omega)
    simp only [List.drop_drop] at this
    unfold OccursAt
    rwa [show k + (i - k) = i by omega] at this

theorem occursAt_bound (text term : QString) (j : Nat) (hne : term ≠ [])
    (h : OccursAt text term j) : j + term.length ≤ text.length := by
  unfold OccursAt at h
  have hl := h.length_le
  simp only [List.length_drop] at hl
  have hpos : 0 < term.length := List.length_pos.mpr hne
  omega

theorem leftmostFrom_unique (text term : QString) (s j1 j2 : Nat)
    (h1 : LeftmostFrom text term s j1) (h2 : LeftmostFrom text term s j2) : j1 = j2 := by
  obtain ⟨a1, b1, c1⟩ := h1
  obtain ⟨a2, b2, c2⟩ := h2
  rcases Nat.lt_trichotomy j1 j2 with hlt | heq | hgt
  · exact absurd b1 (c2 j1 a1 hlt)
  · exact heq
  · exact absurd b2 (c1 j2 a2 hgt)

theorem indexOf_of_leftmostFrom (text term : QString) (s j : Nat) (hne : term ≠ [])
    (h : LeftmostFrom text term s j) : QString.indexOf text term s = some j := by
  have hb := occursAt_bound text term j hne h.2.1
  cases hi : QString.indexOf text term s with
  | none => exact absurd h.2.1 (indexOf_none text term s hi j h.1 (by omega))
  | some j2 =>
    have := (indexOf_some text term s j2 hi).2
    rw [leftmostFrom_unique text term s j2 j this h]

theorem literalFind_forward (text term : QString) (flags : FindFlags) (s : Nat)
    (hterm : term ≠ []) (hfwd : flags.findBackward = false) (hs : s ≤ text.length) :
    literalFind text term (s : Int) flags = matchCursor term (QString.indexOf text term s) := by
  unfold literalFind
  have h1 : ¬ ((s : Int) < 0 ∨ (s : Int) > text.length) := by omega
  rw [if_neg hterm, if_neg (by simp [hfwd]), if_neg h1, Int.toNat_ofNat]

theorem matchCursor_some_accept (text term : QString) (s j : Nat) (hterm : term ≠ [])
    (h : QString.indexOf text term s = some j) :
    (j : Int) + term.length ≤ text.length := by
  have := occursAt_bound text term j hterm (indexOf_some text term s j h).2.2.1
  omega

/-- The cursor a forward `find` over the whole buffer reaches its final test
with, when both document searches act as the plain substring search. -/
theorem findCandidate_forward (e : TextEdit) (q : DocumentSearch) (term : QString)
    (flags : FindFlags) (wrap : Bool) (s : Nat)
    (hterm : term ≠ []) (hfwd : flags.findBackward = false)
    (hrx : ∀ pos, q.findRegularExpression term pos flags
      = literalFind e.document.bufferText term pos flags)
    (hstr : ∀ pos, q.findString term pos flags
      = literalFind e.document.bufferText term pos flags)
    (hs : max e.position e.anchor = (s : Int)) (hsl : s ≤ e.document.bufferText.length)
    (hp0 : 0 ≤ e.position) :
    e.findCandidate q term 0 (e.document.bufferText.length : Int) flags wrap
      = match QString.indexOf e.document.bufferText term s with
        | some j => matchCursor term (some j)
        | none => if wrap = true then matchCursor term (QString.indexOf e.document.bufferText term 0)
                  else .null := by
  have hpl : ¬ (e.position > (e.document.bufferText.length : Int)) := by omega
  have hp0n : ¬ (e.position < 0) := by omega
  unfold TextEdit.findCandidate
  simp only [TextEdit.textCursor, QTextCursor.position, hp0n, hpl, if_false, hfwd,
    Bool.false_eq_true, QTextCursor.selectionEnd, hs, hrx, hstr]
  rw [literalFind_forward _ _ _ s hterm hfwd hsl]
  have h0 := literalFind_forward e.document.bufferText term flags 0 hterm hfwd (Nat.zero_le _)
  simp only [Nat.cast_zero] at h0
  cases hi : QString.indexOf e.document.bufferText term s with
  | none =>
    cases wrap with
    | false => simp [matchCursor]
    | true => simp [matchCursor, QTextCursor.isNull, h0]
  | some j =>
    have hb := matchCursor_some_accept _ _ s j hterm hi
    cases wrap with
    | false => simp [matchCursor]
    | true =>
      have hE : ¬ (max ((j : Int) + term.length) j > (e.document.bufferText.length : Int)) := by
        omega
      have hS : ¬ (min ((j : Int) + term.length) j < 0) := by omega
      simp only [matchCursor, QTextCursor.isNull, QTextCursor.selectionEnd,
        QTextCursor.selectionStart, hE, hS, Bool.false_eq_true, and_false, or_false, false_or,
        if_false, if_true, Bool.not_false, and_true, false_and]

/-- One forward `find` over the whole buffer, when both document searches act
as the plain substring search: the next occurrence at or after the selection
end is selected; without one, the call fails or, with wrap-around, selects the
first occurrence of the buffer. -/
theorem find_forward_step (e : TextEdit) (q : DocumentSearch) (term : QString)
    (flags : FindFlags) (wrap : Bool) (s : Nat)
    (hdoc : e.document.blocks ≠ []) (hterm : term ≠ []) (hfwd : flags.findBackward = false)
    (hrx : ∀ pos, q.findRegularExpression term pos flags
      = literalFind e.document.bufferText term pos flags)
    (hstr : ∀ pos, q.findString term pos flags
      = literalFind e.document.bufferText term pos flags)
    (hs : max e.position e.anchor = (s : Int)) (hsl : s ≤ e.document.bufferText.length)
    (hp0 : 0 ≤ e.position) :
    e.find q term 0 (-1) flags wrap
      = match QString.indexOf e.document.bufferText term s with
        | some j => (true, { e with anchor := j, position := (j : Int) + term.length,
                                    m_findTermSelected := true })
        | none =>
          if wrap = true then
            match QString.indexOf e.document.bufferText term 0 with
            | some j => (true, { e with anchor := j, position := (j : Int) + term.length,
                                        m_findTermSelected := true })
            | none => (false, e)
          else (false, e) := by
  have hcc := characterCount_eq e.document hdoc
  have hre : (if (-1 : Int) < 0 then e.document.characterCount - 1 else -1)
      = (e.document.bufferText.length : Int) := by
    rw [if_pos (by decide), hcc]
    omega
  unfold TextEdit.find
  simp only [hre]
  rw [findCandidate_forward e q term flags wrap s hterm hfwd hrx hstr hs hsl hp0]
  have accept : ∀ (k j : Nat), QString.indexOf e.document.bufferText term k = some j →
      ((matchCursor term (some j)).isNull = false
        ∧ (matchCursor term (some j)).selectionEnd ≤ (e.document.bufferText.length : Int)
        ∧ (matchCursor term (some j)).selectionStart ≥ 0) := by
    intro k j hkj
    have hb := matchCursor_some_accept _ _ k j hterm hkj
    simp only [matchCursor, QTextCursor.isNull, QTextCursor.selectionEnd,
      QTextCursor.selectionStart]
    refine ⟨trivial, ?_, ?_⟩ <;> omega
  cases hi : QString.indexOf e.document.bufferText term s with
  | some j =>
    simp only []
    rw [if_pos (accept s j hi)]
    simp [matchCursor, TextEdit.setTextCursor]
  | none =>
    cases wrap with
    | false => simp [QTextCursor.isNull]
    | true =>
      simp only [if_true]
      cases h0 : QString.indexOf e.document.bufferText term 0 with
      | some j =>
        simp only []
        rw [if_pos (accept 0 j h0)]
        simp [matchCursor, TextEdit.setTextCursor]
      | none => simp [matchCursor, QTextCursor.isNull]

theorem kthOccurrence_first (text term : QString) :
    ∀ (k j : Nat), KthOccurrence text term k j → ∃ j0, LeftmostFrom text term 0 j0 := by
  intro k
  induction k with
  | zero => intro j h; exact ⟨j, h⟩
  | succ k ih =>
    intro j h
    obtain ⟨i, hi, _⟩ := h
    exact ih i hi

theorem kthOccurrence_occursAt (text term : QString) (k j : Nat)
    (h : KthOccurrence text term k j) : OccursAt text term j := by
  cases k with
  | zero => exact h.2.1
  | succ k =>
    obtain ⟨_, _, h3⟩ := h
    exact h3.2.1

/-- After `k + 1` consecutive forward calls the selection is the `k`-th
occurrence, and the call that made it returned true. -/
theorem findTimes_forward (e : TextEdit) (q : DocumentSearch) (term : QString)
    (flags : FindFlags) (wrap : Bool)
    (hdoc : e.document.blocks ≠ []) (hterm : term ≠ []) (hfwd : flags.findBackward = false)
    (hrx : ∀ pos, q.findRegularExpression term pos flags
      = literalFind e.document.bufferText term pos flags)
    (hstr : ∀ pos, q.findString term pos flags
      = literalFind e.document.bufferText term pos flags)
    (ha : e.anchor = 0) (hp : e.position = 0) :
    ∀ (k j : Nat), KthOccurrence e.document.bufferText term k j →
      (e.findTimes q term flags wrap k).find q term 0 (-1) flags wrap
        = (true, { e with anchor := j, position := (j : Int) + term.length,
                          m_findTermSelected := true }) := by
  intro k
  induction k with
  | zero =>
    intro j hj
    have hi := indexOf_of_leftmostFrom _ _ 0 j hterm hj
    have := find_forward_step e q term flags wrap 0 hdoc hterm hfwd hrx hstr
      (by rw [ha, hp]; rfl) (Nat.zero_le _) (by omega)
    rw [hi] at this
    exact this
  | succ k ih =>
    intro j hj
    obtain ⟨i, hki, hij⟩ := hj
    have hprev := ih i hki
    have hstate : e.findTimes q term flags wrap (k + 1)
        = { e with anchor := i, position := (i : Int) + term.length,
                   m_findTermSelected := true } := by
      show ((e.findTimes q term flags wrap k).find q term 0 (-1) flags wrap).2 = _
      rw [hprev]
    rw [hstate]
    have hb := occursAt_bound _ _ i hterm (kthOccurrence_occursAt _ _ k i hki)
    have hi := indexOf_of_leftmostFrom _ _ (i + term.length) j hterm hij
    have := find_forward_step
      { e with anchor := i, position := (i : Int) + term.length, m_findTermSelected := true }
      q term flags wrap (i + term.length) hdoc hterm hfwd hrx hstr
      (by simp) hb (by simp; omega)
    simp only [] at this
    rw [hi] at this
    exact this

/-! ## Same-word highlights: lemmas -/

theorem all_dropWhile_iff (p : QChar → Bool) (s : QString) :
    (∀ c ∈ s.dropWhile p, p c = true) ↔ ∀ c ∈ s, p c = true := by
  induction s with
  | nil => simp
  | cons a s ih =>
    by_cases ha : p a = true
    · simp [List.dropWhile_cons, ha, ih]
    · simp [List.dropWhile_cons, ha]

theorem trimmed_isEmpty_iff (s : QString) :
    (QString.trimmed s).isEmpty = true ↔ ∀ c ∈ s, QChar.isSpace c = true := by
  unfold QString.trimmed
  rw [List.isEmpty_iff, List.reverse_eq_nil_iff, List.dropWhile_eq_nil_iff]
  simp only [List.mem_reverse]
  exact all_dropWhile_iff QChar.isSpace s

theorem sameItemsLoop_eq (fullText text : QString) :
    ∀ (fuel j : Nat), j ≤ fullText.length + 1 → fullText.length + 1 - j ≤ fuel →
      sameItemsLoop fullText text fuel j
        = ((List.range' j (fullText.length + 1 - j)).filter
            (fun j => decide (text <+: fullText.drop j))).map
            (fun (j : Nat) => QTextCursor.cursor (j : Int) ((j : Int) + text.length)) := by
  intro fuel
  induction fuel with
  | zero =>
    intro j hj hf
    have : fullText.length + 1 - j = 0 := by omega
    simp [sameItemsLoop, this]
  | succ fuel ih =>
    intro j hj hf
    simp only [sameItemsLoop]
    cases hi : QString.indexOf fullText text j with
    | none =>
      have hnone := indexOf_none fullText text j hi
      have : (List.range' j (fullText.length + 1 - j)).filter
          (fun j => decide (text <+: fullText.drop j)) = [] := by
        rw [List.filter_eq_nil_iff]
        intro a ha
        rw [List.mem_range'_1] at ha
        have := hnone a ha.1 (by omega)
        simpa [OccursAt] using this
      simp [this]
    | some j2 =>
      obtain ⟨hle, hge, hocc, hmin⟩ := indexOf_some fullText text j j2 hi
      have hsplit : List.range' j (fullText.length + 1 - j)
          = List.range' j (j2 - j) ++ (j2 :: List.range' (j2 + 1) (fullText.length + 1 - (j2 + 1))) := by
        have h1 := List.range'_append_1 j (j2 - j) (fullText.length + 1 - j2)
        have h2 : j + (j2 - j) = j2 := by omega
        have h3 : fullText.length + 1 - j2 + (j2 - j) = fullText.length + 1 - j := by omega
        have h4 : fullText.length + 1 - j2 = (fullText.length + 1 - (j2 + 1)) + 1 := by omega
        rw [h2, h3] at h1
        rw [← h1, h4, List.range'_succ]
      have hfirst : (List.range' j (j2 - j)).filter
          (fun j => decide (text <+: fullText.drop j)) = [] := by
        rw [List.filter_eq_nil_iff]
        intro a ha
        rw [List.mem_range'_1] at ha
        have := hmin a ha.1 (by omega)
        simpa [OccursAt] using this
      have hocc2 : decide (text <+: fullText.drop j2) = true := by
        simpa [OccursAt] using hocc
      rw [hsplit, List.filter_append, hfirst, List.nil_append, List.filter_cons, hocc2]
      simp only [if_true, List.map_cons]
      rw [ih (j2 + 1) (by omega) (by omega)]

theorem mem_joinLines (bs : List QString) (c : QChar) (h : c ∈ joinLines bs) :
    c = chNewline ∨ ∃ b ∈ bs, c ∈ b := by
  induction bs with
  | nil => simp [joinLines] at h
  | cons b bs ih =>
    cases bs with
    | nil =>
      simp only [joinLines] at h
      exact Or.inr ⟨b, by simp, h⟩
    | cons b2 bs =>
      simp only [joinLines, List.mem_append, List.mem_cons] at h
      rcases h with h | h | h
      · exact Or.inr ⟨b, by simp, h⟩
      · exact Or.inl h
      · rcases ih h with h2 | ⟨x, hx, hc⟩
        · exact Or.inl h2
        · exact Or.inr ⟨x, List.mem_cons_of_mem _ hx, hc⟩

theorem plainTextChar_eq (c : QChar)
    (h : c ∉ [chNewline, chNbsp, chLineSeparator, chParagraphSeparator, 0xfdd0, 0xfdd1]) :
    plainTextChar c = c := by
  simp only [List.mem_cons, List.mem_singleton, List.not_mem_nil, or_false, not_or] at h
  obtain ⟨-, h1, h2, h3, h4, h5⟩ := h
  unfold plainTextChar
  rw [if_neg (by
    intro hc
    rcases hc with hc | hc | hc | hc
    · exact h4 hc
    · exact h5 hc
    · exact h3 hc
    · exact h2 hc), if_neg h1]

/-- In a buffer none of whose characters `toPlainText` rewrites, the plain text
is the text of the buffer. -/
theorem toPlainText_eq_bufferText (d : QTextDocument)
    (hplain : ∀ b ∈ d.blocks, ∀ c ∈ b,
      c ∉ [chNewline, chNbsp, chLineSeparator, chParagraphSeparator, 0xfdd0, 0xfdd1]) :
    d.toPlainText = d.bufferText := by
  unfold QTextDocument.toPlainText
  conv_rhs => rw [← List.map_id d.bufferText]
  apply List.map_congr_left
  intro c hc
  rcases mem_joinLines d.blocks c hc with h | ⟨b, hb, hcb⟩
  · rw [h]
    rfl
  · exact plainTextChar_eq c (hplain b hb c hcb)

theorem plainTextChar_ne_paragraphSeparator (c : QChar) :
    plainTextChar c ≠ chParagraphSeparator := by
  unfold plainTextChar
  split_ifs with h1 h2
  · decide
  · decide
  · intro h
    exact h1 (Or.inr (Or.inr (Or.inl h)))

/-- A text without line break occurs at the start of a text with its line
breaks given as U+2029 exactly when it occurs at the start of the text with
line feeds. -/
theorem prefix_map_lineBreak (t : QString)
    (ht : ∀ c ∈ t, c ≠ chNewline ∧ c ≠ chParagraphSeparator) :
    ∀ s : QString,
      t <+: s.map (fun c => if c = chNewline then chParagraphSeparator else c) ↔ t <+: s := by
  induction t with
  | nil => intro s; simp
  | cons a t ih =>
    intro s
    cases s with
    | nil => simp
    | cons x s =>
      have ha := ht a (by simp)
      have iht := ih (fun c hc => ht c (List.mem_cons_of_mem _ hc)) s
      simp only [List.map_cons, List.cons_prefix_cons, iht]
      constructor
      · rintro ⟨h1, h2⟩
        refine ⟨?_, h2⟩
        by_cases hx : x = chNewline
        · rw [if_pos hx] at h1
          exact absurd h1 ha.2
        · rw [if_neg hx] at h1
          exact h1
      · rintro ⟨h1, h2⟩
        refine ⟨?_, h2⟩
        rw [if_neg (by rw [← h1]; exact ha.1)]
        exact h1

theorem selectedText_ne_newline (e : TextEdit) : ∀ c ∈ e.selectedText, c ≠ chNewline := by
  intro c hc
  unfold TextEdit.selectedText at hc
  obtain ⟨x, -, hx⟩ := List.mem_map.mp hc
  by_cases h : x = chNewline
  · rw [if_pos h] at hx
    rw [← hx]
    decide
  · rw [if_neg h] at hx
    rw [← hx]
    exact h

/-- The occurrences of a text without line break are the same in the text of
the buffer with line feeds and in the text as a cursor reports it. -/
theorem allOccurrences_cursorText (e : TextEdit) (t : QString)
    (ht : ∀ c ∈ t, c ≠ chNewline ∧ c ≠ chParagraphSeparator) :
    allOccurrences e.document.bufferText t = allOccurrences e.cursorText t := by
  unfold allOccurrences TextEdit.cursorText
  rw [List.length_map]
  congr 1
  apply List.filter_congr
  intro j _
  rw [← List.map_drop, decide_eq_decide]
  exact (prefix_map_lineBreak t ht _).symm

/-- A text that holds a paragraph separator occurs nowhere in the plain
text. -/
theorem allOccurrences_toPlainText_nil (d : QTextDocument) (t : QString)
    (ht : chParagraphSeparator ∈ t) : allOccurrences d.toPlainText t = [] := by
  unfold allOccurrences
  rw [List.map_eq_nil_iff, List.filter_eq_nil_iff]
  intro j _
  simp only [decide_eq_true_eq]
  intro hpre
  have hmem : chParagraphSeparator ∈ d.toPlainText :=
    (List.drop_sublist _ _).subset (hpre.subset ht)
  unfold QTextDocument.toPlainText at hmem
  obtain ⟨x, -, hx⟩ := List.mem_map.mp hmem
  exact plainTextChar_ne_paragraphSeparator x hx

/-! ## Line transforms: lemmas -/

theorem splitRef_append_sep (sep : QChar) (l : QString) (hl : sep ∉ l) (rest : QString) :
    QString.splitRef sep (l ++ sep :: rest) = l :: QString.splitRef sep rest := by
  induction l with
  | nil => simp [QString.splitRef]
  | cons c cs ih =>
    have hc : c ≠ sep := fun h => hl (by simp [h])
    have hcs : sep ∉ cs := fun h => hl (List.mem_cons_of_mem _ h)
    have ih2 := ih hcs
    show QString.splitRef sep (c :: (cs ++ sep :: rest)) = _
    simp only [QString.splitRef, hc, if_false, ih2, List.headD_cons, List.tail_cons]

theorem splitRef_no_sep_self (sep : QChar) (l : QString) (hl : sep ∉ l) :
    QString.splitRef sep l = [l] := by
  induction l with
  | nil => simp [QString.splitRef]
  | cons c cs ih =>
    have hc : c ≠ sep := fun h => hl (by simp [h])
    have hcs : sep ∉ cs := fun h => hl (List.mem_cons_of_mem _ h)
    simp only [QString.splitRef, hc, if_false, ih hcs, List.headD_cons, List.tail_cons]

theorem splitRef_joinLines (ls : List QString) (hne : ls ≠ [])
    (h : ∀ l ∈ ls, chNewline ∉ l) : QString.splitRef chNewline (joinLines ls) = ls := by
  induction ls with
  | nil => exact absurd rfl hne
  | cons l ls ih =>
    cases ls with
    | nil =>
      simp only [joinLines]
      exact splitRef_no_sep_self _ _ (h l (List.mem_cons_self _ _))
    | cons l2 ls =>
      simp only [joinLines]
      rw [splitRef_append_sep _ _ (h l (List.mem_cons_self _ _)),
        ih (by simp) (fun x hx => h x (List.mem_cons_of_mem _ hx))]

theorem join_terminated (f : QString → QString) (ls : List QString) (hne : ls ≠ []) :
    (ls.map (fun l => f l ++ [chNewline])).flatten = joinLines (ls.map f) ++ [chNewline] := by
  induction ls with
  | nil => exact absurd rfl hne
  | cons l ls ih =>
    cases ls with
    | nil => simp [joinLines]
    | cons l2 ls =>
      have := ih (by simp)
      simp only [List.map_cons, List.flatten_cons] at this ⊢
      rw [this]
      simp [joinLines]

theorem getElem?_mapRange {α : Type} (f : α → α) (xs : List α) (a b : Nat) (hab : a ≤ b)
    (k : Nat) :
    (xs.take a ++ ((xs.drop a).take (b - a)).map f ++ xs.drop b)[k]?
      = (xs[k]?).map (fun x => if a ≤ k ∧ k < b then f x else x) := by
  by_cases hk : k < xs.length
  · by_cases h1 : k < a
    · rw [List.append_assoc, List.getElem?_append_left (by simp; omega)]
      rw [List.getElem?_take_of_lt h1]
      have : ¬ (a ≤ k ∧ k < b) := by omega
      simp [this]
    · by_cases h2 : k < b
      · rw [List.getElem?_append_left (by simp; omega),
          List.getElem?_append_right (by simp; omega)]
        simp only [List.length_take, List.getElem?_map]
        have ha : min a xs.length = a := by omega
        rw [ha, List.getElem?_take_of_lt (by omega), List.getElem?_drop]
        have : a + (k - a) = k := by omega
        rw [this]
        have hc : a ≤ k ∧ k < b := by omega
        simp [hc]
      · rw [List.getElem?_append_right (by simp; omega)]
        simp only [List.length_append, List.length_take, List.length_map, List.length_drop]
        rw [List.getElem?_drop]
        have : b + (k - (min a xs.length + min (b - a) (xs.length - a))) = k := by omega
        rw [this]
        have hc : ¬ (a ≤ k ∧ k < b) := by omega
        simp [hc]
  · have h1 : xs[k]? = none := by simp; omega
    rw [h1]
    simp
    omega

theorem foldStates_some (e : Nat) :
    ∀ (xs : List BlockState) (k : Nat), k ≤ e →
      foldStates (some e) k xs = (xs.take (e - k)).map hiddenState ++ xs.drop (e - k) := by
  intro xs
  induction xs with
  | nil => intro k _; simp [foldStates]
  | cons b bs ih =>
    intro k hk
    unfold foldStates
    by_cases he : k = e
    · subst he
      simp
    · have hne : some k ≠ some e := by simpa using he
      rw [if_pos hne, ih (k + 1) (by omega)]
      have h1 : e - k = (e - (k + 1)) + 1 := by omega
      rw [h1]
      simp [hiddenState]

theorem foldStates_none :
    ∀ (xs : List BlockState) (k : Nat), foldStates none k xs = xs.map hiddenState := by
  intro xs
  induction xs with
  | nil => intro k; simp [foldStates]
  | cons b bs ih =>
    intro k
    unfold foldStates
    rw [if_pos (by simp), ih (k + 1)]
    simp [hiddenState]

theorem isFolded_some (states : List BlockState) (L : Nat) (b : BlockState)
    (hb : states[L + 1]? = some b) : isFolded states (some L) = !b.isVisible := by
  have hlt : L + 1 < states.length := by
    by_contra hc
    rw [List.getElem?_eq_none (by omega)] at hb
    exact absurd hb (by simp)
  have hL : L < states.length := by omega
  have hget : states.getD (L + 1) { isVisible := true, lineCount := 0, layoutLineCount := 0 } = b := by
    rw [List.getD_eq_getElem?_getD, hb]
    rfl
  have hv : blockIsVisible states (some (L + 1)) = b.isVisible := by
    simp only [blockIsVisible]
    rw [hget]
  have hn : blockNext states (some L) = some (L + 1) := by
    simp only [blockNext]
    rw [if_pos ⟨by omega, by omega⟩]
  unfold isFolded
  simp only [hn, hv]
  simp [blockIsValid, hlt, hL]

/-- The fold branch of `toggleFold` on a line that is not folded and whose
closing line lies after it: the lines after `L` up to `E` are hidden. -/
theorem toggleFold_fold_eq (h : Highlighter) (states : List BlockState) (L E : Nat)
    (hLE : L < E) (hE : E < states.length) (hclose : h.findFoldingRegionEnd L = some E)
    (hnf : isFolded states (some L) = false) :
    toggleFold h states (some L)
      = states.take (L + 1) ++ ((states.drop (L + 1)).take (E + 1 - (L + 1))).map hiddenState
          ++ states.drop (E + 1) := by
  have hL1 : blockNext states (some L) = some (L + 1) := by
    simp only [blockNext]
    rw [if_pos ⟨by omega, by omega⟩]
  unfold toggleFold
  simp only [hnf, Bool.false_eq_true, if_false, hL1, fromBlock, findClosingBlock, hclose]
  rw [List.append_assoc]
  congr 1
  by_cases hlast : E + 1 < states.length
  · have hE1 : blockNext states (some E) = some (E + 1) := by
      simp only [blockNext]
      rw [if_pos ⟨by omega, by omega⟩]
    rw [hE1, foldStates_some (E + 1) _ (L + 1) (by omega), List.drop_drop]
    congr 2
    omega
  · have hE1 : blockNext states (some E) = none := by
      simp only [blockNext]
      rw [if_neg (by omega)]
    rw [hE1, foldStates_none]
    have h1 : (states.drop (L + 1)).take (E + 1 - (L + 1)) = states.drop (L + 1) := by
      apply List.take_of_length_le
      simp only [List.length_drop]
      omega
    have h2 : states.drop (E + 1) = [] := by
      apply List.drop_of_length_le
      omega
    rw [h1, h2, List.append_nil]

theorem unfoldStates_hidden_append (ms rest : List BlockState)
    (hrest : ∀ b, rest.head? = some b → b.isVisible = true) :
    unfoldStates (ms.map hiddenState ++ rest)
      = ms.map (fun b => { b with isVisible := true, lineCount := b.layoutLineCount }) ++ rest := by
  induction ms with
  | nil =>
    cases rest with
    | nil => simp [unfoldStates]
    | cons r rs =>
      have := hrest r rfl
      simp [unfoldStates, this]
  | cons m ms ih =>
    simp only [List.map_cons, List.cons_append, unfoldStates, hiddenState, Bool.not_false,
      if_true]
    rw [← ih]
    rfl

theorem unfoldStates_head_visible (xs : List BlockState) (b : BlockState)
    (hb : (unfoldStates xs).head? = some b) : b.isVisible = true := by
  cases xs with
  | nil => simp [unfoldStates] at hb
  | cons x xs =>
    unfold unfoldStates at hb
    by_cases hx : x.isVisible = true
    · simp only [hx, Bool.not_true, Bool.false_eq_true, if_false, List.head?_cons,
        Option.some.injEq] at hb
      rw [← hb]
      exact hx
    · have hx2 : x.isVisible = false := by simpa using hx
      simp only [hx2, Bool.not_false, if_true, List.head?_cons, Option.some.injEq] at hb
      rw [← hb]

theorem unfoldStates_length : ∀ xs : List BlockState, (unfoldStates xs).length = xs.length := by
  intro xs
  induction xs with
  | nil => simp [unfoldStates]
  | cons b bs ih =>
    unfold unfoldStates
    split_ifs <;> simp [ih]

theorem toggleFold_fold_length (h : Highlighter) (states : List BlockState) (L E : Nat)
    (hLE : L < E) (hE : E < states.length) (hclose : h.findFoldingRegionEnd L = some E)
    (hnf : isFolded states (some L) = false) :
    (toggleFold h states (some L)).length = states.length := by
  rw [toggleFold_fold_eq h states L E hLE hE hclose hnf]
  simp only [List.length_append, List.length_take, List.length_map, List.length_drop]
  omega

theorem toggleFold_fold_getElem? (h : Highlighter) (states : List BlockState) (L E : Nat)
    (hLE : L < E) (hE : E < states.length) (hclose : h.findFoldingRegionEnd L = some E)
    (hnf : isFolded states (some L) = false) (k : Nat) :
    (toggleFold h states (some L))[k]?
      = (states[k]?).map (fun b => if L + 1 ≤ k ∧ k < E + 1 then hiddenState b else b) := by
  rw [toggleFold_fold_eq h states L E hLE hE hclose hnf]
  exact getElem?_mapRange hiddenState states (L + 1) (E + 1) (by omega) k

/-- After the fold of a line that is not folded and whose closing line lies
after it, the line is folded. -/
theorem isFolded_toggleFold (h : Highlighter) (states : List BlockState) (L E : Nat)
    (hLE : L < E) (hE : E < states.length) (hclose : h.findFoldingRegionEnd L = some E)
    (hnf : isFolded states (some L) = false) :
    isFolded (toggleFold h states (some L)) (some L) = true := by
  have hget := toggleFold_fold_getElem? h states L E hLE hE hclose hnf (L + 1)
  have hs : states[L + 1]? = some (states[L + 1]) := List.getElem?_eq_getElem (by omega)
  rw [hs, Option.map_some', if_pos ⟨le_refl _, by omega⟩] at hget
  rw [isFolded_some _ L _ hget]
  rfl

/-- The unfold branch of `toggleFold` on a folded line. -/
theorem toggleFold_unfold_eq (h : Highlighter) (states : List BlockState) (L : Nat)
    (hL : L + 1 < states.length) (hf : isFolded states (some L) = true) :
    toggleFold h states (some L)
      = states.take (L + 1) ++ unfoldStates (states.drop (L + 1)) := by
  have hL1 : blockNext states (some L) = some (L + 1) := by
    simp only [blockNext]
    rw [if_pos ⟨by omega, by omega⟩]
  unfold toggleFold
  simp only [hf, if_true, hL1, fromBlock]

/-! ## Block operations: lemmas -/

theorem terminated_length (ls : List QString) :
    (terminated ls).length = (ls.map (fun b => b.length + 1)).sum := by
  induction ls with
  | nil => rfl
  | cons l ls ih =>
    simp only [terminated, List.map_cons, List.flatten_cons, List.length_append,
      List.length_singleton, List.sum_cons] at ih ⊢
    rw [ih]

theorem terminated_append (a b : List QString) :
    terminated (a ++ b) = terminated a ++ terminated b := by
  simp [terminated]

theorem terminated_eq (ls : List QString) (hne : ls ≠ []) :
    terminated ls = joinLines ls ++ [chNewline] := by
  have := join_terminated id ls hne
  simpa [terminated] using this

theorem joinLines_append (a b : List QString) (hb : b ≠ []) :
    joinLines (a ++ b) = terminated a ++ joinLines b := by
  induction a with
  | nil => simp [terminated]
  | cons l a ih =>
    cases hab : a ++ b with
    | nil =>
      have : b = [] := (List.append_eq_nil.mp hab).2
      exact absurd this hb
    | cons x xs =>
      rw [List.cons_append, hab]
      simp only [joinLines]
      rw [← hab, ih]
      simp [terminated]

theorem terminated_takeWhile_reverse (ls : List QString) :
    (terminated ls).reverse.takeWhile (fun c => c != chNewline) = [] := by
  cases ls with
  | nil => rfl
  | cons l ls =>
    rw [terminated_eq _ (by simp)]
    simp

theorem startOfBlock_eq (P l Q : QString) (c : Nat)
    (hP : P.reverse.takeWhile (fun c => c != chNewline) = [])
    (hl : chNewline ∉ l) (hc : c ≤ l.length) :
    startOfBlock (P ++ l ++ Q) (P.length + c) = P.length := by
  unfold startOfBlock
  have htake : (P ++ l ++ Q).take (P.length + c) = P ++ l.take c := by
    rw [List.append_assoc, List.take_append, List.take_append_of_le_length hc]
  rw [htake, List.reverse_append]
  have hall : ∀ a ∈ (l.take c).reverse, (fun c => c != chNewline) a = true := by
    intro a ha
    have hmem : a ∈ l := (List.take_sublist _ _).subset (List.mem_reverse.mp ha)
    simp only [bne_iff_ne, ne_eq]
    intro h
    exact hl (h ▸ hmem)
  rw [List.takeWhile_append_of_pos hall, hP, List.append_nil, List.length_reverse,
    List.length_take]
  omega

theorem endOfBlock_eq (P l Q : QString) (c : Nat)
    (hl : chNewline ∉ l) (hc : c ≤ l.length)
    (hQ : Q.takeWhile (fun c => c != chNewline) = []) :
    endOfBlock (P ++ l ++ Q) (P.length + c) = P.length + l.length := by
  unfold endOfBlock
  have hdrop : (P ++ l ++ Q).drop (P.length + c) = l.drop c ++ Q := by
    rw [List.append_assoc, List.drop_append, List.drop_append_of_le_length hc]
  rw [hdrop]
  have hall : ∀ a ∈ l.drop c, (fun c => c != chNewline) a = true := by
    intro a ha
    have hmem : a ∈ l := (List.drop_sublist _ _).subset ha
    simp only [bne_iff_ne, ne_eq]
    intro h
    exact hl (h ▸ hmem)
  rw [List.takeWhile_append_of_pos hall, hQ, List.append_nil, List.length_drop]
  omega

/-- The plain text around block `k`: the terminated lines before it, its text,
and what follows, which is empty or starts with a line feed. -/
theorem joinLines_around (blocks : List QString) (k : Nat) (hk : k < blocks.length) :
    ∃ Q : QString, joinLines blocks = terminated (blocks.take k) ++ blocks.getD k [] ++ Q
      ∧ Q.takeWhile (fun c => c != chNewline) = []
      ∧ (k + 1 < blocks.length → Q = chNewline :: joinLines (blocks.drop (k + 1)))
      ∧ (¬ k + 1 < blocks.length → Q = []) := by
  have hsplit : blocks = blocks.take k ++ blocks.drop k := (List.take_append_drop k blocks).symm
  have hdrop : blocks.drop k = blocks.getD k [] :: blocks.drop (k + 1) := by
    rw [List.getD_eq_getElem _ _ hk]
    exact List.drop_eq_getElem_cons hk
  have hj : joinLines blocks = terminated (blocks.take k) ++ joinLines (blocks.drop k) := by
    conv_lhs => rw [hsplit]
    exact joinLines_append _ _ (by rw [hdrop]; simp)
  by_cases hlast : k + 1 < blocks.length
  · refine ⟨chNewline :: joinLines (blocks.drop (k + 1)), ?_, ?_, fun _ => rfl,
      fun h => absurd hlast h⟩
    · rw [hj, hdrop]
      cases hd : blocks.drop (k + 1) with
      | nil =>
        have : (blocks.drop (k + 1)).length = 0 := by rw [hd]; rfl
        simp only [List.length_drop] at this
        omega
      | cons x xs => simp [joinLines, List.append_assoc]
    · simp
  · refine ⟨[], ?_, rfl, fun h => absurd h hlast, fun _ => rfl⟩
    have hd : blocks.drop (k + 1) = [] := List.drop_of_length_le (by omega)
    rw [hj, hdrop, hd]
    simp [joinLines]

theorem blockStart_eq_terminated (blocks : List QString) (k : Nat) :
    QTextDocument.blockStart { blocks := blocks } k = (terminated (blocks.take k)).length := by
  unfold QTextDocument.blockStart
  rw [terminated_length]

/-- Start and end of the block that holds an offset of line `k`, and the offset
of the next block, in the plain text of a document whose lines hold no line
feed. -/
theorem block_bounds (blocks : List QString) (k c : Nat) (hk : k < blocks.length)
    (hwf : ∀ l ∈ blocks, chNewline ∉ l) (hc : c ≤ (blocks.getD k []).length) :
    startOfBlock (joinLines blocks) ((terminated (blocks.take k)).length + c)
        = (terminated (blocks.take k)).length
    ∧ endOfBlock (joinLines blocks) ((terminated (blocks.take k)).length + c)
        = (terminated (blocks.take k)).length + (blocks.getD k []).length
    ∧ (terminated (blocks.take k)).length + (blocks.getD k []).length ≤ (joinLines blocks).length
    ∧ (k + 1 < blocks.length →
        (terminated (blocks.take k)).length + (blocks.getD k []).length < (joinLines blocks).length
        ∧ (terminated (blocks.take k)).length + (blocks.getD k []).length + 1
            = (terminated (blocks.take (k + 1))).length)
    ∧ (¬ k + 1 < blocks.length →
        (terminated (blocks.take k)).length + (blocks.getD k []).length
          = (joinLines blocks).length) := by
  obtain ⟨Q, hT, hQ, hQ1, hQ2⟩ := joinLines_around blocks k hk
  have hl : chNewline ∉ blocks.getD k [] := by
    rw [List.getD_eq_getElem _ _ hk]
    exact hwf _ (List.getElem_mem hk)
  have hlen : (joinLines blocks).length
      = (terminated (blocks.take k)).length + (blocks.getD k []).length + Q.length := by
    rw [hT]
    simp only [List.length_append]
  refine ⟨?_, ?_, by omega, ?_, ?_⟩
  · rw [hT]
    exact startOfBlock_eq _ _ _ c (terminated_takeWhile_reverse _) hl hc
  · rw [hT]
    exact endOfBlock_eq _ _ _ c hl hc hQ
  · intro hlt
    have hq := hQ1 hlt
    have hql : Q.length ≥ 1 := by rw [hq]; simp
    refine ⟨by omega, ?_⟩
    have htk : blocks.take (k + 1) = blocks.take k ++ [blocks.getD k []] := by
      rw [List.take_succ, List.getD_eq_getElem _ _ hk, List.getElem?_eq_getElem hk]
      rfl
    rw [htk, terminated_append, List.length_append]
    have hone : (terminated [blocks.getD k []]).length = (blocks.getD k []).length + 1 := by
      simp [terminated]
    rw [hone]
    omega
  · intro hlast
    rw [hlen, hQ2 hlast]
    rfl

theorem moveTarget_nextBlock (blocks : List QString) (k c : Nat) (hk : k < blocks.length)
    (hwf : ∀ l ∈ blocks, chNewline ∉ l) (hc : c ≤ (blocks.getD k []).length) :
    moveTarget (joinLines blocks) ((terminated (blocks.take k)).length + c) .NextBlock
      = if k + 1 < blocks.length then some (terminated (blocks.take (k + 1))).length
        else none := by
  obtain ⟨_, he, _, h1, h2⟩ := block_bounds blocks k c hk hwf hc
  unfold moveTarget
  rw [he]
  by_cases hlt : k + 1 < blocks.length
  · rw [if_pos (h1 hlt).1, if_pos hlt, (h1 hlt).2]
  · rw [if_neg (by rw [h2 hlt]; omega), if_neg hlt]

theorem terminated_take_le (blocks : List QString) (i j : Nat) (hij : i ≤ j) :
    (terminated (blocks.take i)).length ≤ (terminated (blocks.take j)).length := by
  have h : blocks.take j = blocks.take i ++ (blocks.take j).drop i := by
    conv_lhs => rw [← List.take_append_drop i (blocks.take j)]
    rw [List.take_take, Nat.min_eq_left hij]
  rw [h, terminated_append, List.length_append]
  omega

theorem removeSelectedText_text (t : QString) (c : LiveCursor) :
    (removeSelectedText t c).text = t.take c.selectionStart ++ t.drop c.selectionEnd := by
  unfold removeSelectedText
  split_ifs with h
  · have h1 : c.selectionStart = c.position := by
      unfold LiveCursor.selectionStart
      omega
    have h2 : c.selectionEnd = c.position := by
      unfold LiveCursor.selectionEnd
      omega
    rw [h1, h2, List.take_append_drop]
  · rfl

theorem removeSelectedText_cursor (t : QString) (c : LiveCursor) :
    (removeSelectedText t c).cursor
      = { anchor := c.selectionStart, position := c.selectionStart } := by
  unfold removeSelectedText
  split_ifs with h
  · have h1 : c.selectionStart = c.position := by
      unfold LiveCursor.selectionStart
      omega
    rw [h1]
    cases c with
    | mk a p =>
      simp only at h
      subst h
      rfl
  · rfl

theorem deletePreviousChar_newline (t : QString) (p : Nat) (hp : 1 ≤ p)
    (hch : t.getD (p - 1) 0 = chNewline) :
    (deletePreviousChar t { anchor := p, position := p }).text = t.take (p - 1) ++ t.drop p := by
  unfold deletePreviousChar
  have hlow : QChar.isLowSurrogate (t.getD (p - 1) 0) = false := by
    rw [hch]
    decide
  simp only [ne_eq, not_true_eq_false, if_false, hlow, Bool.false_eq_true, false_and, and_false]
  rw [if_neg (by omega), removeSelectedText_text]
  have h1 : LiveCursor.selectionStart { anchor := p - 1, position := p } = p - 1 := by
    unfold LiveCursor.selectionStart
    simp
  have h2 : LiveCursor.selectionEnd { anchor := p - 1, position := p } = p := by
    unfold LiveCursor.selectionEnd
    simp
  rw [h1, h2]

theorem take_terminated_joinLines (blocks : List QString) (k : Nat) (hk : k < blocks.length) :
    (joinLines blocks).take (terminated (blocks.take k)).length = terminated (blocks.take k)
    ∧ (joinLines blocks).drop (terminated (blocks.take k)).length = joinLines (blocks.drop k) := by
  have hne : blocks.drop k ≠ [] := by
    intro h
    have : (blocks.drop k).length = 0 := by rw [h]; rfl
    simp only [List.length_drop] at this
    omega
  have hj : joinLines blocks = terminated (blocks.take k) ++ joinLines (blocks.drop k) := by
    conv_lhs => rw [← List.take_append_drop k blocks]
    exact joinLines_append _ _ hne
  rw [hj]
  exact ⟨List.take_left _ _, List.drop_left _ _⟩

theorem terminated_last (ls : List QString) (hne : ls ≠ []) :
    (terminated ls).getD ((terminated ls).length - 1) 0 = chNewline := by
  have hterm := terminated_eq ls hne
  generalize terminated ls = P at hterm
  generalize joinLines ls = J at hterm
  subst hterm
  rw [List.getD_eq_getElem?_getD, List.getElem?_append_right (by simp)]
  simp

/-- The text `deleteSelectedBlocks` leaves when the selection starts in line
`i` and ends in line `j` and the span is not the whole buffer. -/
theorem deleteSelectedBlocks_text (blocks : List QString) (cur : LiveCursor) (i j c1 c2 : Nat)
    (hwf : ∀ l ∈ blocks, chNewline ∉ l) (hij : i ≤ j) (hj : j < blocks.length)
    (hs : cur.selectionStart = (terminated (blocks.take i)).length + c1)
    (hc1 : c1 ≤ (blocks.getD i []).length)
    (he : cur.selectionEnd = (terminated (blocks.take j)).length + c2)
    (hc2 : c2 ≤ (blocks.getD j []).length)
    (hnotall : ¬ (i = 0 ∧ j + 1 = blocks.length)) :
    (deleteSelectedBlocks { text := joinLines blocks, cursor := cur }).text
      = joinLines (blocks.take i ++ blocks.drop (j + 1)) := by
  have hi : i < blocks.length := by omega
  obtain ⟨hsi, -, hbi, -, -⟩ := block_bounds blocks i c1 hi hwf hc1
  obtain ⟨-, hej, hbj, hnj, hlj⟩ := block_bounds blocks j c2 hj hwf hc2
  have hSij := terminated_take_le blocks i j hij
  have hnext := moveTarget_nextBlock blocks j c2 hj hwf hc2
  rw [← hs] at hsi
  rw [← he] at hej hnext
  have hssle : cur.selectionStart ≤ (joinLines blocks).length := by omega
  have hsele : cur.selectionEnd ≤ (joinLines blocks).length := by omega
  have h1 : LiveCursor.setPosition (joinLines blocks) cur cur.selectionStart false
      = { anchor := cur.selectionStart, position := cur.selectionStart } := by
    unfold LiveCursor.setPosition
    rw [if_neg (by omega)]
    rfl
  have h2 : LiveCursor.movePosition (joinLines blocks)
      { anchor := cur.selectionStart, position := cur.selectionStart } .StartOfBlock false
      = (true, { anchor := (terminated (blocks.take i)).length,
                 position := (terminated (blocks.take i)).length }) := by
    simp only [LiveCursor.movePosition, moveTarget, hsi]
    rfl
  have h3 : LiveCursor.setPosition (joinLines blocks)
      { anchor := (terminated (blocks.take i)).length,
        position := (terminated (blocks.take i)).length } cur.selectionEnd true
      = { anchor := (terminated (blocks.take i)).length, position := cur.selectionEnd } := by
    unfold LiveCursor.setPosition
    rw [if_neg (by omega)]
    rfl
  obtain ⟨htake, -⟩ := take_terminated_joinLines blocks i hi
  unfold deleteSelectedBlocks
  simp only [h1, h2, h3]
  by_cases hlt : j + 1 < blocks.length
  · rw [if_pos hlt] at hnext
    have h4 : LiveCursor.movePosition (joinLines blocks)
        { anchor := (terminated (blocks.take i)).length, position := cur.selectionEnd }
        .NextBlock true
        = (true, { anchor := (terminated (blocks.take i)).length,
                   position := (terminated (blocks.take (j + 1))).length }) := by
      simp only [LiveCursor.movePosition, hnext]
      rfl
    obtain ⟨-, hdrop⟩ := take_terminated_joinLines blocks (j + 1) hlt
    have hS := (hnj hlt).2
    simp only [h4, Bool.not_true, Bool.false_eq_true, if_false, removeSelectedText_text]
    have e1 : LiveCursor.selectionStart
        { anchor := (terminated (blocks.take i)).length,
          position := (terminated (blocks.take (j + 1))).length }
        = (terminated (blocks.take i)).length := by
      unfold LiveCursor.selectionStart
      simp only
      omega
    have e2 : LiveCursor.selectionEnd
        { anchor := (terminated (blocks.take i)).length,
          position := (terminated (blocks.take (j + 1))).length }
        = (terminated (blocks.take (j + 1))).length := by
      unfold LiveCursor.selectionEnd
      simp only
      omega
    rw [e1, e2, htake, hdrop]
    have hne : blocks.drop (j + 1) ≠ [] := by
      intro h
      have : (blocks.drop (j + 1)).length = 0 := by rw [h]; rfl
      simp only [List.length_drop] at this
      omega
    rw [joinLines_append _ _ hne]
  · rw [if_neg hlt] at hnext
    have hend := hlj hlt
    have h4 : LiveCursor.movePosition (joinLines blocks)
        { anchor := (terminated (blocks.take i)).length, position := cur.selectionEnd }
        .NextBlock true
        = (false, { anchor := (terminated (blocks.take i)).length,
                    position := cur.selectionEnd }) := by
      simp only [LiveCursor.movePosition, hnext]
    have h5 : LiveCursor.movePosition (joinLines blocks)
        { anchor := (terminated (blocks.take i)).length, position := cur.selectionEnd }
        .EndOfBlock true
        = (true, { anchor := (terminated (blocks.take i)).length,
                   position := (joinLines blocks).length }) := by
      simp only [LiveCursor.movePosition, moveTarget, hej, hend]
      rfl
    have hi0 : 0 < i := by omega
    have hje : j + 1 = blocks.length := by omega
    simp only [h4, h5, Bool.not_false, if_true, removeSelectedText_cursor]
    have e1 : LiveCursor.selectionStart
        { anchor := (terminated (blocks.take i)).length, position := (joinLines blocks).length }
        = (terminated (blocks.take i)).length := by
      unfold LiveCursor.selectionStart
      simp only
      omega
    have e2 : LiveCursor.selectionEnd
        { anchor := (terminated (blocks.take i)).length, position := (joinLines blocks).length }
        = (joinLines blocks).length := by
      unfold LiveCursor.selectionEnd
      simp only
      omega
    have htext : (removeSelectedText (joinLines blocks)
        { anchor := (terminated (blocks.take i)).length,
          position := (joinLines blocks).length }).text = terminated (blocks.take i) := by
      rw [removeSelectedText_text, e1, e2, htake, List.drop_length, List.append_nil]
    have hne : blocks.take i ≠ [] := by
      intro h
      have : (blocks.take i).length = 0 := by rw [h]; rfl
      simp only [List.length_take] at this
      omega
    have hterm := terminated_eq (blocks.take i) hne
    have hlenP : (terminated (blocks.take i)).length = (joinLines (blocks.take i)).length + 1 := by
      rw [hterm]
      simp
    rw [htext, e1, deletePreviousChar_newline _ _ (by omega) (terminated_last _ hne)]
    have hd : blocks.drop (j + 1) = [] := List.drop_of_length_le (by omega)
    rw [hd, List.append_nil, List.drop_length, List.append_nil]
    generalize hP : terminated (blocks.take i) = P at hterm
    rw [hterm]
    simp

theorem removeSelectedText_others_before (t : QString) (c o : LiveCursor)
    (ha : o.anchor < c.selectionStart) (hp : o.position < c.selectionStart) :
    (removeSelectedText t c).others o = o := by
  unfold removeSelectedText
  split_ifs with h
  · rfl
  · cases o with
    | mk a p =>
      simp only at ha hp
      simp only [LiveCursor.adjustRemove]
      rw [if_neg (by omega), if_pos hp]

theorem insertText_text (t : QString) (p : Nat) (text : QString) :
    (insertText t { anchor := p, position := p } text).text
      = t.take p ++ text.map (fun ch => if ch = chParagraphSeparator then chNewline else ch)
          ++ t.drop p := by
  simp [insertText, insertAtCursor, removeSelectedText]

/-- A line without line feed, selected with its terminator and inserted again,
arrives as the line and a line feed. -/
theorem selectedText_roundtrip (l : QString) (hps : chParagraphSeparator ∉ l) :
    ((l ++ [chNewline]).map (fun ch => if ch = chNewline then chParagraphSeparator else ch)).map
        (fun ch => if ch = chParagraphSeparator then chNewline else ch)
      = l ++ [chNewline] := by
  rw [List.map_map]
  conv_rhs => rw [← List.map_id (l ++ [chNewline])]
  apply List.map_congr_left
  intro a ha
  simp only [Function.comp, id]
  by_cases h : a = chNewline
  · simp [h]
  · rw [if_neg h]
    have : a ≠ chParagraphSeparator := by
      intro h2
      rcases List.mem_append.mp ha with h3 | h3
      · exact hps (h2 ▸ h3)
      · simp at h3
        exact h h3
    rw [if_neg this]

theorem drop_ne_nil (blocks : List QString) (k : Nat) (hk : k < blocks.length) :
    blocks.drop k ≠ [] := by
  intro h
  have : (blocks.drop k).length = 0 := by rw [h]; rfl
  simp only [List.length_drop] at this
  omega

theorem getD_mem (blocks : List QString) (k : Nat) (hk : k < blocks.length) :
    blocks.getD k [] ∈ blocks := by
  rw [List.getD_eq_getElem _ _ hk]
  exact List.getElem_mem hk

/-- Without a second line below the span `moveSelectedBlocksDown` does
nothing. -/
theorem moveSelectedBlocksDown_noop (blocks : List QString) (cur : LiveCursor) (j c2 : Nat)
    (hwf : ∀ l ∈ blocks, chNewline ∉ l) (hj : j < blocks.length)
    (he : cur.selectionEnd = (terminated (blocks.take j)).length + c2)
    (hc2 : c2 ≤ (blocks.getD j []).length)
    (hlast : ¬ j + 2 < blocks.length) :
    moveSelectedBlocksDown { text := joinLines blocks, cursor := cur }
      = { text := joinLines blocks, cursor := cur } := by
  obtain ⟨-, -, hbj, -, -⟩ := block_bounds blocks j c2 hj hwf hc2
  have hnext := moveTarget_nextBlock blocks j c2 hj hwf hc2
  rw [← he] at hnext
  have h1 : LiveCursor.setPosition (joinLines blocks) cur cur.selectionEnd false
      = { anchor := cur.selectionEnd, position := cur.selectionEnd } := by
    unfold LiveCursor.setPosition
    rw [if_neg (by omega)]
    rfl
  by_cases hlt : j + 1 < blocks.length
  · rw [if_pos hlt] at hnext
    have hnext2 := moveTarget_nextBlock blocks (j + 1) 0 hlt hwf (Nat.zero_le _)
    rw [if_neg hlast, Nat.add_zero] at hnext2
    have h2 : LiveCursor.movePosition (joinLines blocks)
        { anchor := cur.selectionEnd, position := cur.selectionEnd } .NextBlock false
        = (true, { anchor := (terminated (blocks.take (j + 1))).length,
                   position := (terminated (blocks.take (j + 1))).length }) := by
      simp only [LiveCursor.movePosition, hnext]
      rfl
    have h3 : LiveCursor.movePosition (joinLines blocks)
        { anchor := (terminated (blocks.take (j + 1))).length,
          position := (terminated (blocks.take (j + 1))).length } .NextBlock true
        = (false, { anchor := (terminated (blocks.take (j + 1))).length,
                    position := (terminated (blocks.take (j + 1))).length }) := by
      simp only [LiveCursor.movePosition, hnext2]
    unfold moveSelectedBlocksDown
    simp only [h1, h2, h3, Bool.and_false, Bool.false_and, Bool.not_false, ↓reduceIte]
  · rw [if_neg hlt] at hnext
    have h2 : LiveCursor.movePosition (joinLines blocks)
        { anchor := cur.selectionEnd, position := cur.selectionEnd } .NextBlock false
        = (false, { anchor := cur.selectionEnd, position := cur.selectionEnd }) := by
      simp only [LiveCursor.movePosition, hnext]
    have h3 : LiveCursor.movePosition (joinLines blocks)
        { anchor := cur.selectionEnd, position := cur.selectionEnd } .NextBlock true
        = (false, { anchor := cur.selectionEnd, position := cur.selectionEnd }) := by
      simp only [LiveCursor.movePosition, hnext]
    unfold moveSelectedBlocksDown
    simp only [h1, h2, h3, Bool.and_false, Bool.false_and, Bool.not_false, ↓reduceIte]

theorem selection_bounds (a b : Nat) (hab : a ≤ b) :
    LiveCursor.selectionStart { anchor := a, position := b } = a
    ∧ LiveCursor.selectionEnd { anchor := a, position := b } = b := by
  unfold LiveCursor.selectionStart LiveCursor.selectionEnd
  simp only
  omega

/-- The text `moveSelectedBlocksDown` leaves when the selection starts in line
`i` and ends in line `j` and there are two lines or more below line `j`. -/
theorem moveSelectedBlocksDown_text (blocks : List QString) (cur : LiveCursor) (i j c1 c2 : Nat)
    (hwf : ∀ l ∈ blocks, chNewline ∉ l) (hps : ∀ l ∈ blocks, chParagraphSeparator ∉ l)
    (hij : i ≤ j) (hj2 : j + 2 < blocks.length)
    (hs : cur.selectionStart = (terminated (blocks.take i)).length + c1)
    (hc1 : c1 ≤ (blocks.getD i []).length)
    (he : cur.selectionEnd = (terminated (blocks.take j)).length + c2)
    (hc2 : c2 ≤ (blocks.getD j []).length) :
    (moveSelectedBlocksDown { text := joinLines blocks, cursor := cur }).text
      = joinLines (blocks.take i ++ [blocks.getD (j + 1) []]
          ++ ((blocks.take (j + 1)).drop i ++ blocks.drop (j + 2))) := by
  have hj : j < blocks.length := by omega
  have hj1 : j + 1 < blocks.length := by omega
  have hi : i < blocks.length := by omega
  obtain ⟨-, -, hbj, hnj, -⟩ := block_bounds blocks j c2 hj hwf hc2
  obtain ⟨-, -, -, hnj1, -⟩ := block_bounds blocks (j + 1) 0 hj1 hwf (Nat.zero_le _)
  have hAB : (terminated (blocks.take (j + 1))).length + (blocks.getD (j + 1) []).length + 1
      = (terminated (blocks.take (j + 2))).length := (hnj1 hj2).2
  have hSij := terminated_take_le blocks i j hij
  have hSj := (hnj hj1).2
  have hnext := moveTarget_nextBlock blocks j c2 hj hwf hc2
  rw [← he, if_pos hj1] at hnext
  have hnext2 := moveTarget_nextBlock blocks (j + 1) 0 hj1 hwf (Nat.zero_le _)
  rw [if_pos hj2, Nat.add_zero] at hnext2
  have h1 : LiveCursor.setPosition (joinLines blocks) cur cur.selectionEnd false
      = { anchor := cur.selectionEnd, position := cur.selectionEnd } := by
    unfold LiveCursor.setPosition
    rw [if_neg (by omega)]
    rfl
  have h2 : LiveCursor.movePosition (joinLines blocks)
      { anchor := cur.selectionEnd, position := cur.selectionEnd } .NextBlock false
      = (true, { anchor := (terminated (blocks.take (j + 1))).length,
                 position := (terminated (blocks.take (j + 1))).length }) := by
    simp only [LiveCursor.movePosition, hnext]
    rfl
  have h3 : LiveCursor.movePosition (joinLines blocks)
      { anchor := (terminated (blocks.take (j + 1))).length,
        position := (terminated (blocks.take (j + 1))).length } .NextBlock true
      = (true, { anchor := (terminated (blocks.take (j + 1))).length,
                 position := (terminated (blocks.take (j + 2))).length }) := by
    simp only [LiveCursor.movePosition, hnext2]
    rfl
  obtain ⟨e1, e2⟩ := selection_bounds (terminated (blocks.take (j + 1))).length
    (terminated (blocks.take (j + 2))).length (by omega)
  obtain ⟨htakeA, hdropA⟩ := take_terminated_joinLines blocks (j + 1) hj1
  obtain ⟨-, hdropB⟩ := take_terminated_joinLines blocks (j + 2) hj2
  have hne2 : blocks.drop (j + 2) ≠ [] := drop_ne_nil blocks (j + 2) hj2
  have hdrop1 : blocks.drop (j + 1) = [blocks.getD (j + 1) []] ++ blocks.drop (j + 2) := by
    rw [List.getD_eq_getElem _ _ hj1]
    exact List.drop_eq_getElem_cons hj1
  have hone : terminated [blocks.getD (j + 1) []] = blocks.getD (j + 1) [] ++ [chNewline] := by
    simp [terminated]
  have h4 : selectedText (joinLines blocks)
      { anchor := (terminated (blocks.take (j + 1))).length,
        position := (terminated (blocks.take (j + 2))).length }
      = (blocks.getD (j + 1) [] ++ [chNewline]).map
          (fun ch => if ch = chNewline then chParagraphSeparator else ch) := by
    unfold selectedText
    rw [e1, e2, hdropA, hdrop1, joinLines_append _ _ hne2, hone]
    have hlen : (terminated (blocks.take (j + 2))).length - (terminated (blocks.take (j + 1))).length
        = (blocks.getD (j + 1) [] ++ [chNewline]).length := by
      rw [List.length_append, List.length_singleton]
      omega
    rw [hlen, List.take_left]
  have h5 : (removeSelectedText (joinLines blocks)
      { anchor := (terminated (blocks.take (j + 1))).length,
        position := (terminated (blocks.take (j + 2))).length }).text
      = joinLines (blocks.take (j + 1) ++ blocks.drop (j + 2)) := by
    rw [removeSelectedText_text, e1, e2, htakeA, hdropB, joinLines_append _ _ hne2]
  have h6 : (removeSelectedText (joinLines blocks)
      { anchor := (terminated (blocks.take (j + 1))).length,
        position := (terminated (blocks.take (j + 2))).length }).others cur = cur := by
    have hss : cur.selectionStart ≤ cur.selectionEnd := by
      unfold LiveCursor.selectionStart LiveCursor.selectionEnd
      omega
    have ha : cur.anchor ≤ cur.selectionEnd := by
      unfold LiveCursor.selectionEnd
      omega
    have hp : cur.position ≤ cur.selectionEnd := by
      unfold LiveCursor.selectionEnd
      omega
    apply removeSelectedText_others_before
    · rw [e1]
      omega
    · rw [e1]
      omega
  -- the document after the removal
  have hlen1 : (blocks.take (j + 1)).length = j + 1 := by
    rw [List.length_take]
    omega
  have htake' : (blocks.take (j + 1) ++ blocks.drop (j + 2)).take i = blocks.take i := by
    rw [List.take_append_of_le_length (by omega), List.take_take, Nat.min_eq_left (by omega)]
  have hdrop' : (blocks.take (j + 1) ++ blocks.drop (j + 2)).drop i
      = (blocks.take (j + 1)).drop i ++ blocks.drop (j + 2) := by
    rw [List.drop_append_of_le_length (by omega)]
  have hlen' : i < (blocks.take (j + 1) ++ blocks.drop (j + 2)).length := by
    rw [List.length_append, hlen1]
    omega
  have hget' : (blocks.take (j + 1) ++ blocks.drop (j + 2)).getD i [] = blocks.getD i [] := by
    rw [List.getD_eq_getElem?_getD, List.getD_eq_getElem?_getD,
      List.getElem?_append_left (by omega), List.getElem?_take_of_lt (by omega)]
  have hwf' : ∀ l ∈ blocks.take (j + 1) ++ blocks.drop (j + 2), chNewline ∉ l := by
    intro l hl
    rcases List.mem_append.mp hl with h | h
    · exact hwf l ((List.take_sublist _ _).subset h)
    · exact hwf l ((List.drop_sublist _ _).subset h)
  obtain ⟨hsi, -, hbi, -, -⟩ := block_bounds (blocks.take (j + 1) ++ blocks.drop (j + 2)) i c1
    hlen' hwf' (by rw [hget']; exact hc1)
  rw [htake', ← hs] at hsi
  rw [htake', hget'] at hbi
  have h7 : LiveCursor.setPosition (joinLines (blocks.take (j + 1) ++ blocks.drop (j + 2))) cur
      cur.selectionStart false
      = { anchor := cur.selectionStart, position := cur.selectionStart } := by
    unfold LiveCursor.setPosition
    rw [if_neg (by omega)]
    rfl
  have h8 : LiveCursor.movePosition (joinLines (blocks.take (j + 1) ++ blocks.drop (j + 2)))
      { anchor := cur.selectionStart, position := cur.selectionStart } .StartOfBlock false
      = (true, { anchor := (terminated (blocks.take i)).length,
                 position := (terminated (blocks.take i)).length }) := by
    simp only [LiveCursor.movePosition, moveTarget, hsi]
    rfl
  obtain ⟨htakeI, hdropI⟩ := take_terminated_joinLines
    (blocks.take (j + 1) ++ blocks.drop (j + 2)) i hlen'
  rw [htake'] at htakeI hdropI
  rw [hdrop'] at hdropI
  have hneI : (blocks.take (j + 1)).drop i ++ blocks.drop (j + 2) ≠ [] := by
    intro h
    exact hne2 (List.append_eq_nil.mp h).2
  unfold moveSelectedBlocksDown
  simp only [h1, h2, h3, Bool.and_self, Bool.not_true, Bool.false_eq_true, ↓reduceIte, h4, h5, h6,
    h7, h8, insertText_text, selectedText_roundtrip _ (hps _ (getD_mem blocks (j + 1) hj1)),
    htakeI, hdropI]
  rw [joinLines_append _ _ hneI, terminated_append, hone]

/-! ## Line transforms: column lemmas -/

/-- C1: for a position whose line is valid, `toOffset` (`cursorPosToAbsolutePos`)
returns the line start plus the column clamped to `[0, max(0, lineLength-1)]`,
where `lineLength` is the length the buffer reports for the line, its text plus
its terminator; the clamped column lies between 0 and the number of characters
of the text, a negative column gives the line start and a column past the end
gives the end of the line's text. -/
theorem toOffset_valid_line (e : TextEdit) (pos : CursorPos)
    (hl : 0 ≤ pos.line) (hu : pos.line < e.document.blockCount) :
    (e.document.findBlockByNumber pos.line).length = ((e.lineText pos.line).length : Int) + 1
    ∧ e.toOffset pos
        = (e.document.findBlockByNumber pos.line).position
          + clampColumn (e.document.findBlockByNumber pos.line).length pos.column
    ∧ (e.document.findBlockByNumber pos.line).position
        = (e.document.blockStart pos.line.toNat : Int)
    ∧ 0 ≤ clampColumn (e.document.findBlockByNumber pos.line).length pos.column
    ∧ clampColumn (e.document.findBlockByNumber pos.line).length pos.column
        ≤ ((e.lineText pos.line).length : Int)
    ∧ (0 ≤ pos.column → pos.column ≤ ((e.lineText pos.line).length : Int) →
        e.toOffset pos = (e.document.blockStart pos.line.toNat : Int) + pos.column)
    ∧ (pos.column < 0 → e.toOffset pos = (e.document.blockStart pos.line.toNat : Int))
    ∧ (((e.lineText pos.line).length : Int) < pos.column →
        e.toOffset pos
          = (e.document.blockStart pos.line.toNat : Int) + ((e.lineText pos.line).length : Int)) := by
  have hoff := cursorPosToAbsolutePos_eq e pos hl hu
  have hblock : e.document.findBlockByNumber pos.line
      = { isValid := true, blockNumber := pos.line,
          position := e.document.blockStart pos.line.toNat,
          length := ((e.document.blocks.getD pos.line.toNat []).length : Nat) + 1 } := by
    unfold QTextDocument.findBlockByNumber
    simp only [hl, hu, and_self, if_true]
  unfold TextEdit.toOffset
  rw [hblock, hoff]
  unfold clampColumn TextEdit.lineText
  simp only
  refine ⟨trivial, ?_, trivial, ?_, ?_, ?_, ?_, ?_⟩
  · congr 2
    omega
  · omega
  · omega
  · intro h0 h1
    omega
  · intro h0
    omega
  · intro h1
    omega

/-- Witness of C1: line 1 of the buffer "ab", "cde" with column 7 resolves to
the end of the text of line 1. -/
theorem toOffset_valid_line_witness :
    (0 : Int) ≤ 1 ∧ (1 : Int) < 2 ∧ (twoLineEdit.toOffset { line := 1, column := 7 } = 6) :=
  ⟨by decide, by decide, by
    have h := (toOffset_valid_line twoLineEdit { line := 1, column := 7 }
      (by decide) (by decide)).2.2.2.2.2.2.2 (by decide)
    rw [h]
    decide⟩

/-- C2: for a position whose line is valid, `toCursorPos (toOffset p)` is the
line with the clamped column, it equals `toCursorPos (toOffset (line, clamp
column))`, and mapping the result to an offset and back a second time returns
the same position, both as a pure function of the buffer and on the editor
state left by the first `setCursorPosition`. -/
theorem toCursorPos_toOffset_idempotent (e : TextEdit) (pos : CursorPos)
    (hl : 0 ≤ pos.line) (hu : pos.line < e.document.blockCount) :
    e.toCursorPos (e.toOffset pos)
      = { line := pos.line,
          column := clampColumn (((e.lineText pos.line).length : Int) + 1) pos.column }
    ∧ e.toCursorPos (e.toOffset pos)
      = e.toCursorPos (e.toOffset
          { line := pos.line,
            column := clampColumn (((e.lineText pos.line).length : Int) + 1) pos.column })
    ∧ e.toCursorPos (e.toOffset (e.toCursorPos (e.toOffset pos))) = e.toCursorPos (e.toOffset pos)
    ∧ ((e.setCursorPosition pos).setCursorPosition
          (e.setCursorPosition pos).getCursorPosition).getCursorPosition
        = (e.setCursorPosition pos).getCursorPosition := by
  have hclamp : ∀ col : Int, clampColumn (((e.lineText pos.line).length : Int) + 1) col
      = max 0 (min col ((e.lineText pos.line).length : Int)) := by
    intro col
    unfold clampColumn
    omega
  have h1 := toCursorPos_cursorPosToAbsolutePos e pos hl hu
  have h2 := toCursorPos_cursorPosToAbsolutePos e
    { line := pos.line, column := max 0 (min pos.column ((e.lineText pos.line).length : Int)) }
    hl hu
  have hidem : max 0 (min (max 0 (min pos.column ((e.lineText pos.line).length : Int)))
      ((e.lineText pos.line).length : Int))
      = max 0 (min pos.column ((e.lineText pos.line).length : Int)) := by omega
  simp only [hidem] at h2
  have hdoc : (e.setCursorPosition pos).document = e.document :=
    setAbsoluteCursorPosition_document e _
  have h3 := toCursorPos_cursorPosToAbsolutePos (e.setCursorPosition pos)
    { line := pos.line, column := max 0 (min pos.column ((e.lineText pos.line).length : Int)) }
    hl (by rw [hdoc]; exact hu)
  have hlt : (e.setCursorPosition pos).lineText pos.line = e.lineText pos.line := by
    unfold TextEdit.lineText
    rw [hdoc]
  rw [hlt] at h3
  simp only [hidem] at h3
  have hget : (e.setCursorPosition pos).getCursorPosition
      = { line := pos.line, column := max 0 (min pos.column ((e.lineText pos.line).length : Int)) } :=
    h1
  unfold TextEdit.toOffset
  rw [hclamp]
  refine ⟨h1, ?_, ?_, ?_⟩
  · rw [h1, h2]
  · rw [h1, h2]
  · rw [hget]
    exact h3

/-- Witness of C2: column 7 on line 1 of "ab", "cde" normalises to column 3. -/
theorem toCursorPos_toOffset_idempotent_witness :
    (0 : Int) ≤ 1 ∧ (1 : Int) < 2
    ∧ twoLineEdit.toCursorPos (twoLineEdit.toOffset { line := 1, column := 7 })
        = { line := 1, column := 3 } :=
  ⟨by decide, by decide, by
    have h := (toCursorPos_toOffset_idempotent twoLineEdit { line := 1, column := 7 }
      (by decide) (by decide)).1
    rw [h]
    decide⟩

/-- C3 fails as stated: in the buffer "ab", "cde" the position (line 5,
column 1), past the last line, resolves to offset 0 inside the first line, not
to the offset 4 of (last line, column 1). -/
theorem toOffset_line_out_of_range_counterexample :
    twoLineEdit.document.blockCount = 2
    ∧ twoLineEdit.toOffset { line := 5, column := 1 } = 0
    ∧ twoLineEdit.toOffset { line := 2 - 1, column := 1 } = 4
    ∧ twoLineEdit.toOffset { line := 5, column := 1 }
        ≠ twoLineEdit.toOffset { line := 2 - 1, column := 1 }
    ∧ twoLineEdit.toOffset { line := -1, column := 1 } = 0
    ∧ twoLineEdit.toOffset { line := 0, column := 1 } = 1 := by
  decide

/-- C3 as amended: a position whose line is out of range (negative, or at or
past the line count) resolves to offset 0, the start of the buffer, whatever
its column. -/
theorem toOffset_line_out_of_range (e : TextEdit) (pos : CursorPos)
    (h : pos.line < 0 ∨ e.document.blockCount ≤ pos.line) :
    e.toOffset pos = 0 := by
  unfold TextEdit.toOffset TextEdit.cursorPosToAbsolutePos QTextDocument.findBlockByNumber
  have hn : ¬ (0 ≤ pos.line ∧ pos.line < e.document.blockCount) := by omega
  simp only [hn, if_false, QTextBlock.invalid]
  omega

/-- Witness of the amended C3: line 5 of the two-line buffer. -/
theorem toOffset_line_out_of_range_witness :
    ((5 : Int) < 0 ∨ twoLineEdit.document.blockCount ≤ 5)
    ∧ twoLineEdit.toOffset { line := 5, column := 1 } = 0 :=
  ⟨by decide, toOffset_line_out_of_range twoLineEdit { line := 5, column := 1 } (by decide)⟩

/-! ## Search: claims -/

/-- C4: whenever `find` returns true, the selection it makes active lies inside
the region: `regionStart` is at most the selection start and the selection end
is at most `regionEnd`, a negative `regionEnd` standing for the end of the
buffer (the length of its plain text); this holds whatever the document
searches return, on the first attempt and on the wrapped retry. -/
theorem find_selection_in_region (e : TextEdit) (q : DocumentSearch) (term : QString)
    (regionStart regionEnd : Int) (flags : FindFlags) (wrapAround : Bool)
    (h : (e.find q term regionStart regionEnd flags wrapAround).1 = true) :
    regionStart ≤ (e.find q term regionStart regionEnd flags wrapAround).2.textCursor.selectionStart
    ∧ (e.find q term regionStart regionEnd flags wrapAround).2.textCursor.selectionEnd
        ≤ effectiveRegionEnd e regionEnd
    ∧ (0 ≤ regionEnd → effectiveRegionEnd e regionEnd = regionEnd)
    ∧ (regionEnd < 0 → e.document.blocks ≠ [] →
        effectiveRegionEnd e regionEnd = (e.document.bufferText.length : Int)) := by
  have hend1 : 0 ≤ regionEnd → effectiveRegionEnd e regionEnd = regionEnd := by
    intro h0
    unfold effectiveRegionEnd
    rw [if_neg (by omega)]
  have hend2 : regionEnd < 0 → e.document.blocks ≠ [] →
      effectiveRegionEnd e regionEnd = (e.document.bufferText.length : Int) := by
    intro h0 hdoc
    unfold effectiveRegionEnd
    rw [if_pos h0, characterCount_eq e.document hdoc]
    omega
  refine ⟨?_, ?_, hend1, hend2⟩
  all_goals
    unfold TextEdit.find effectiveRegionEnd at *
    simp only at h ⊢
    generalize e.findCandidate q term regionStart
      (if regionEnd < 0 then e.document.characterCount - 1 else regionEnd) flags wrapAround
      = c at h ⊢
    by_cases hacc : c.isNull = false
        ∧ c.selectionEnd ≤ (if regionEnd < 0 then e.document.characterCount - 1 else regionEnd)
        ∧ c.selectionStart ≥ regionStart
    · rw [if_pos hacc]
      obtain ⟨hn, hE, hS⟩ := hacc
      cases c with
      | null => simp [QTextCursor.isNull] at hn
      | cursor a p =>
        simp only [TextEdit.setTextCursor, TextEdit.textCursor, QTextCursor.selectionStart,
          QTextCursor.selectionEnd] at hE hS ⊢
        first | exact hS | exact hE
    · rw [if_neg hacc] at h
      simp at h

/-- Witness of C4: the first forward search for "abc" in "abcabcabc" over the
whole buffer returns true and selects `[0, 3)`, inside the region `[0, 9]`. -/
theorem find_selection_in_region_witness :
    ((editorOn (qstr "abcabcabc")).find (literalSearch (qstr "abcabcabc")) (qstr "abc")
        0 (-1) forwardFlags false).1 = true
    ∧ (0 : Int) ≤ ((editorOn (qstr "abcabcabc")).find (literalSearch (qstr "abcabcabc"))
        (qstr "abc") 0 (-1) forwardFlags false).2.textCursor.selectionStart
    ∧ ((editorOn (qstr "abcabcabc")).find (literalSearch (qstr "abcabcabc"))
        (qstr "abc") 0 (-1) forwardFlags false).2.textCursor.selectionEnd
        ≤ effectiveRegionEnd (editorOn (qstr "abcabcabc")) (-1)
    ∧ effectiveRegionEnd (editorOn (qstr "abcabcabc")) (-1) = 9 :=
  ⟨by decide,
   (find_selection_in_region (editorOn (qstr "abcabcabc")) (literalSearch (qstr "abcabcabc"))
      (qstr "abc") 0 (-1) forwardFlags false (by decide)).1,
   (find_selection_in_region (editorOn (qstr "abcabcabc")) (literalSearch (qstr "abcabcabc"))
      (qstr "abc") 0 (-1) forwardFlags false (by decide)).2.1,
   by decide⟩

/-- C5: on a buffer with plain text `text`, for a non-empty term on which both
document searches act as the plain substring search (a term without
metacharacters), with the region the whole buffer and the cursor at offset 0
without selection: the call number `k` of consecutive forward `find` calls
(counting from 0) returns true and selects the `k`-th leftmost non-overlapping
occurrence of the term; once no occurrence starts at or after the end of the
current selection, the next call returns false and leaves the state as it is
when `wrapAround` is false, and selects the first occurrence again when
`wrapAround` is true; with no occurrence at all every call returns false. -/
theorem find_forward_consecutive (e : TextEdit) (q : DocumentSearch) (term : QString)
    (flags : FindFlags)
    (hdoc : e.document.blocks ≠ []) (hterm : term ≠ []) (hfwd : flags.findBackward = false)
    (hrx : ∀ pos, q.findRegularExpression term pos flags
      = literalFind e.document.bufferText term pos flags)
    (hstr : ∀ pos, q.findString term pos flags
      = literalFind e.document.bufferText term pos flags)
    (ha : e.anchor = 0) (hp : e.position = 0) :
    (∀ (wrap : Bool) (k j : Nat), KthOccurrence e.document.bufferText term k j →
      (e.findTimes q term flags wrap k).find q term 0 (-1) flags wrap
        = (true, { e with anchor := j, position := (j : Int) + term.length,
                          m_findTermSelected := true }))
    ∧ (∀ (wrap : Bool) (k j : Nat), KthOccurrence e.document.bufferText term k j →
      (∀ i, j + term.length ≤ i → ¬ OccursAt e.document.bufferText term i) →
      (e.findTimes q term flags wrap (k + 1)).find q term 0 (-1) flags false
          = (false, e.findTimes q term flags wrap (k + 1))
      ∧ ∃ j0, LeftmostFrom e.document.bufferText term 0 j0
          ∧ (e.findTimes q term flags wrap (k + 1)).find q term 0 (-1) flags true
            = (true, { e with anchor := j0, position := (j0 : Int) + term.length,
                              m_findTermSelected := true }))
    ∧ ((∀ i, ¬ OccursAt e.document.bufferText term i) →
        ∀ wrap, e.find q term 0 (-1) flags wrap = (false, e)) := by
  refine ⟨fun wrap => findTimes_forward e q term flags wrap hdoc hterm hfwd hrx hstr ha hp, ?_, ?_⟩
  · intro wrap k j hk hnone
    have hprev := findTimes_forward e q term flags wrap hdoc hterm hfwd hrx hstr ha hp k j hk
    have hstate : e.findTimes q term flags wrap (k + 1)
        = { e with anchor := j, position := (j : Int) + term.length,
                   m_findTermSelected := true } := by
      show ((e.findTimes q term flags wrap k).find q term 0 (-1) flags wrap).2 = _
      rw [hprev]
    have hb := occursAt_bound _ _ j hterm (kthOccurrence_occursAt _ _ k j hk)
    have hi : QString.indexOf e.document.bufferText term (j + term.length) = none := by
      cases h : QString.indexOf e.document.bufferText term (j + term.length) with
      | none => rfl
      | some j2 =>
        have h2 := (indexOf_some _ _ _ _ h).2
        exact absurd h2.2.1 (hnone j2 h2.1)
    obtain ⟨j0, hj0⟩ := kthOccurrence_first _ _ k j hk
    have h0 := indexOf_of_leftmostFrom _ _ 0 j0 hterm hj0
    have step := fun w => find_forward_step
      { e with anchor := j, position := (j : Int) + term.length, m_findTermSelected := true }
      q term flags w (j + term.length) hdoc hterm hfwd hrx hstr
      (by simp) hb (by simp; omega)
    simp only [] at step
    rw [hi] at step
    rw [hstate]
    refine ⟨?_, j0, hj0, ?_⟩
    · have := step false
      simpa using this
    · have := step true
      rw [h0] at this
      simpa using this
  · intro hnone wrap
    have hi : ∀ s, QString.indexOf e.document.bufferText term s = none := by
      intro s
      cases h : QString.indexOf e.document.bufferText term s with
      | none => rfl
      | some j2 => exact absurd (indexOf_some _ _ _ _ h).2.2.1 (hnone j2)
    have := find_forward_step e q term flags wrap 0 hdoc hterm hfwd hrx hstr
      (by rw [ha, hp]; rfl) (Nat.zero_le _) (by omega)
    rw [hi 0] at this
    simpa using this

/-- Witness of C5: in "abcabcabc" the term "abc" has its occurrences 0, 1, 2 at
offsets 0, 3, 6; the first three calls select `[0,3)`, `[3,6)`, `[6,9)`, the
fourth returns false without wrap-around and selects `[0,3)` with it. -/
theorem find_forward_consecutive_witness :
    KthOccurrence abcText abcTerm 0 0 ∧ KthOccurrence abcText abcTerm 1 3
    ∧ KthOccurrence abcText abcTerm 2 6
    ∧ ((editorOn abcText).findTimes (literalSearch abcText) abcTerm forwardFlags false 0).find
        (literalSearch abcText) abcTerm 0 (-1) forwardFlags false
        = (true, { editorOn abcText with anchor := 0, position := 3, m_findTermSelected := true })
    ∧ ((editorOn abcText).findTimes (literalSearch abcText) abcTerm forwardFlags false 1).find
        (literalSearch abcText) abcTerm 0 (-1) forwardFlags false
        = (true, { editorOn abcText with anchor := 3, position := 6, m_findTermSelected := true })
    ∧ ((editorOn abcText).findTimes (literalSearch abcText) abcTerm forwardFlags false 2).find
        (literalSearch abcText) abcTerm 0 (-1) forwardFlags false
        = (true, { editorOn abcText with anchor := 6, position := 9, m_findTermSelected := true })
    ∧ ((editorOn abcText).findTimes (literalSearch abcText) abcTerm forwardFlags false 3).find
        (literalSearch abcText) abcTerm 0 (-1) forwardFlags false
        = (false, (editorOn abcText).findTimes (literalSearch abcText) abcTerm forwardFlags false 3)
    ∧ ((editorOn abcText).findTimes (literalSearch abcText) abcTerm forwardFlags false 3).find
        (literalSearch abcText) abcTerm 0 (-1) forwardFlags true
        = (true, { editorOn abcText with anchor := 0, position := 3,
                                         m_findTermSelected := true }) := by
  have main := find_forward_consecutive (editorOn abcText) (literalSearch abcText) abcTerm
    forwardFlags (by decide) (by decide) rfl (fun _ => rfl) (fun _ => rfl) rfl rfl
  have k0 : KthOccurrence abcText abcTerm 0 0 :=
    (indexOf_some abcText abcTerm 0 0 (by decide)).2
  have k1 : KthOccurrence abcText abcTerm 1 3 :=
    ⟨0, k0, (indexOf_some abcText abcTerm 3 3 (by decide)).2⟩
  have k2 : KthOccurrence abcText abcTerm 2 6 :=
    ⟨3, k1, (indexOf_some abcText abcTerm 6 6 (by decide)).2⟩
  have hnone : ∀ i, 6 + abcTerm.length ≤ i → ¬ OccursAt abcText abcTerm i := by
    intro i hi h
    have hb := occursAt_bound abcText abcTerm i (by decide) h
    have h1 : abcText.length = 9 := by decide
    have h2 : abcTerm.length = 3 := by decide
    omega
  obtain ⟨hfalse, j0, hj0, htrue⟩ := main.2.1 false 2 6 k2 hnone
  have hj : j0 = 0 := leftmostFrom_unique abcText abcTerm 0 j0 0 hj0 k0
  subst hj
  exact ⟨k0, k1, k2, main.1 false 0 0 k0, main.1 false 1 3 k1, main.1 false 2 6 k2, hfalse, htrue⟩

/-! ## Same-word highlights: claims -/

/-- C6 fails as stated.  In the buffer "a", U+00A0, "a", U+00A0 with the first
two characters selected, the selected text has 2 characters, is not white space
and occurs in the buffer at offsets 0 and 2, but the layer is empty: the scan
runs over `toPlainText()`, which holds a space for every U+00A0.  In the buffer
"ab", "cd" with the characters 1..4 selected, the selected text occurs at
offset 1, but the layer is empty: the selected text has U+2029 for the line
break, the plain text a line feed. -/
theorem onSelectionChanged_sameItems_counterexample :
    nbspEdit.selectedText = [97, 0x00a0]
    ∧ ¬ (nbspEdit.selectedText.length < 2 ∨ ∀ c ∈ nbspEdit.selectedText, QChar.isSpace c = true)
    ∧ allOccurrences nbspEdit.cursorText nbspEdit.selectedText
        = [QTextCursor.cursor 0 2, QTextCursor.cursor 2 4]
    ∧ nbspEdit.onSelectionChanged = []
    ∧ lineBreakEdit.selectedText = [98, 0x2029, 99]
    ∧ ¬ (lineBreakEdit.selectedText.length < 2
          ∨ ∀ c ∈ lineBreakEdit.selectedText, QChar.isSpace c = true)
    ∧ allOccurrences lineBreakEdit.cursorText lineBreakEdit.selectedText
        = [QTextCursor.cursor 1 4]
    ∧ lineBreakEdit.onSelectionChanged = [] := by
  decide

/-- C6, amended: after a selection change with selected text `t`: if `t` is
shorter than 2 characters or consists only of white space the same-word layer
is empty; otherwise, in a buffer whose lines hold no U+00A0, U+2028, U+2029,
U+FDD0 or U+FDD1 (and no line feed, which ends a line) and for a selection that
does not span a line break, the layer is
exactly the list, in increasing order of offset, of the ranges `[j, j + |t|)`
for every offset `j` of the buffer at which `t` occurs, overlapping occurrences
included.  In every buffer the layer lists the offsets at which `t` occurs in
`toPlainText()`, and it is empty for a selection that spans a line break. -/
theorem onSelectionChanged_sameItems (e : TextEdit) :
    ((e.selectedText.length < 2 ∨ ∀ c ∈ e.selectedText, QChar.isSpace c = true) →
        e.onSelectionChanged = [])
    ∧ (¬ (e.selectedText.length < 2 ∨ ∀ c ∈ e.selectedText, QChar.isSpace c = true) →
        (∀ b ∈ e.document.blocks, ∀ c ∈ b,
          c ∉ [chNewline, chNbsp, chLineSeparator, chParagraphSeparator, 0xfdd0, 0xfdd1]) →
        chParagraphSeparator ∉ e.selectedText →
        e.onSelectionChanged = allOccurrences e.cursorText e.selectedText)
    ∧ (¬ (e.selectedText.length < 2 ∨ ∀ c ∈ e.selectedText, QChar.isSpace c = true) →
        e.onSelectionChanged = allOccurrences e.document.toPlainText e.selectedText)
    ∧ (chParagraphSeparator ∈ e.selectedText → e.onSelectionChanged = []) := by
  have hshort : (e.selectedText.length < 2 ∨ ∀ c ∈ e.selectedText, QChar.isSpace c = true) →
      e.onSelectionChanged = [] := by
    intro h
    unfold TextEdit.onSelectionChanged
    simp only [trimmed_isEmpty_iff]
    rw [if_pos h]
  have hgen : ¬ (e.selectedText.length < 2 ∨ ∀ c ∈ e.selectedText, QChar.isSpace c = true) →
      e.onSelectionChanged = allOccurrences e.document.toPlainText e.selectedText := by
    intro h
    unfold TextEdit.onSelectionChanged
    simp only [trimmed_isEmpty_iff]
    rw [if_neg h]
    rw [sameItemsLoop_eq _ _ _ 0 (Nat.zero_le _) (by omega)]
    unfold allOccurrences
    rw [List.range_eq_range']
    rfl
  refine ⟨hshort, ?_, hgen, ?_⟩
  · intro h hplain hsel
    rw [hgen h, toPlainText_eq_bufferText e.document hplain]
    apply allOccurrences_cursorText
    intro c hc
    refine ⟨selectedText_ne_newline e c hc, ?_⟩
    intro hps
    exact hsel (hps ▸ hc)
  · intro hps
    by_cases h : e.selectedText.length < 2 ∨ ∀ c ∈ e.selectedText, QChar.isSpace c = true
    · exact hshort h
    · rw [hgen h]
      exact allOccurrences_toPlainText_nil e.document e.selectedText hps

/-- Witness of C6: selecting "aa" in the buffer "aaa" gives the two ranges
`[0,2)` and `[1,3)`. -/
theorem onSelectionChanged_sameItems_witness :
    aaaEdit.selectedText = qstr "aa"
    ∧ ¬ (aaaEdit.selectedText.length < 2 ∨ ∀ c ∈ aaaEdit.selectedText, QChar.isSpace c = true)
    ∧ aaaEdit.onSelectionChanged = [QTextCursor.cursor 0 2, QTextCursor.cursor 1 3] :=
  ⟨by decide, by decide, by
    rw [(onSelectionChanged_sameItems aaaEdit).2.1 (by decide) (by decide) (by decide)]
    decide⟩

/-! ## Line transforms: claims -/

/-- C11 fails on the code: with three visible lines and no closing line for
line 0 (the collaborator answers with an invalid block), `toggleFold` of line
0, which is not folded, hides lines 1 and 2, every line up to the end of the
buffer, where the claim asks for no change. -/
theorem toggleFold_invalid_closing_example :
    findClosingBlock noRegions (some 0) = none
    ∧ isFolded [visibleLine, visibleLine, visibleLine] (some 0) = false
    ∧ toggleFold noRegions [visibleLine, visibleLine, visibleLine] (some 0)
        = [visibleLine, hiddenState visibleLine, hiddenState visibleLine]
    ∧ toggleFold noRegions [visibleLine, visibleLine, visibleLine] (some 0)
        ≠ [visibleLine, visibleLine, visibleLine] := by
  decide

/-- C12: for a line `L` that is not folded and whose closing line `E` is valid
and lies after `L`, `toggleFold(L)` sets every line of `(L, E]` to hidden with
line count 0 and changes no other line: the lines up to `L`, `L` included, and
the lines after `E` keep their state, and the number of lines is the same. -/
theorem toggleFold_hides_region (h : Highlighter) (states : List BlockState) (L E : Nat)
    (hLE : L < E) (hE : E < states.length) (hclose : findClosingBlock h (some L) = some E)
    (hnf : isFolded states (some L) = false) :
    (toggleFold h states (some L)).length = states.length
    ∧ (∀ k b, states[k]? = some b → L < k → k ≤ E →
        (toggleFold h states (some L))[k]?
          = some { b with isVisible := false, lineCount := 0 })
    ∧ (∀ k b, states[k]? = some b → ¬ (L < k ∧ k ≤ E) →
        (toggleFold h states (some L))[k]? = some b)
    ∧ (toggleFold h states (some L))[L]? = states[L]? := by
  have hget := toggleFold_fold_getElem? h states L E hLE hE hclose hnf
  refine ⟨toggleFold_fold_length h states L E hLE hE hclose hnf, ?_, ?_, ?_⟩
  · intro k b hb h1 h2
    rw [hget k, hb, Option.map_some', if_pos ⟨by omega, by omega⟩]
    rfl
  · intro k b hb hout
    rw [hget k, hb, Option.map_some', if_neg (by omega)]
  · rw [hget L]
    cases hs : states[L]? with
    | none => rfl
    | some b => rw [Option.map_some', if_neg (by omega)]

/-- Witness of C12: four visible lines, line 0 opens a region closed by line 2;
after `toggleFold(0)` lines 1 and 2 are hidden, lines 0 and 3 are as before. -/
theorem toggleFold_hides_region_witness :
    toggleFold (regionFromZero 2) [visibleLine, visibleLine, visibleLine, visibleLine] (some 0)
      = [visibleLine, hiddenLine, hiddenLine, visibleLine]
    ∧ (toggleFold (regionFromZero 2) [visibleLine, visibleLine, visibleLine, visibleLine]
        (some 0))[2]? = some { visibleLine with isVisible := false, lineCount := 0 } :=
  ⟨by decide,
   (toggleFold_hides_region (regionFromZero 2)
      [visibleLine, visibleLine, visibleLine, visibleLine] 0 2 (by decide) (by decide)
      (by decide) (by decide)).2.1 2 visibleLine (by decide) (by decide) (by decide)⟩

/-- C13 fails as stated: with lines 0, 1, 3 visible, line 2 hidden and line 0
opening a region closed by line 3, line 0 is not folded; folding it and
unfolding it leaves all four lines visible, so line 2 is not restored.  The
same happens when the hidden line 2 comes right after the closing line 1; and a
visible line whose layout has no line yet comes back with line count 0. -/
theorem toggleFold_twice_counterexample :
    isFolded [visibleLine, visibleLine, hiddenLine, visibleLine] (some 0) = false
    ∧ findClosingBlock (regionFromZero 3) (some 0) = some 3
    ∧ toggleFold (regionFromZero 3)
        (toggleFold (regionFromZero 3) [visibleLine, visibleLine, hiddenLine, visibleLine]
          (some 0)) (some 0)
        = [visibleLine, visibleLine, visibleLine, visibleLine]
    ∧ toggleFold (regionFromZero 3)
        (toggleFold (regionFromZero 3) [visibleLine, visibleLine, hiddenLine, visibleLine]
          (some 0)) (some 0)
        ≠ [visibleLine, visibleLine, hiddenLine, visibleLine]
    ∧ toggleFold (regionFromZero 1)
        (toggleFold (regionFromZero 1) [visibleLine, visibleLine, hiddenLine, visibleLine]
          (some 0)) (some 0)
        ≠ [visibleLine, visibleLine, hiddenLine, visibleLine]
    ∧ toggleFold (regionFromZero 1)
        (toggleFold (regionFromZero 1)
          [visibleLine, { isVisible := true, lineCount := 1, layoutLineCount := 0 }]
          (some 0)) (some 0)
        = [visibleLine, { isVisible := true, lineCount := 0, layoutLineCount := 0 }] := by
  decide

/-- C13 as amended: in a fold state where every line of `(L, E]` is visible with
its natural line count and the line after `E`, if there is one, is visible, for
a line `L` whose closing line `E` is valid and lies after `L`, `toggleFold(L)`
followed by `toggleFold(L)` restores the visibility and the line count of every
line. -/
theorem toggleFold_twice_restores (h : Highlighter) (states : List BlockState) (L E : Nat)
    (hLE : L < E) (hE : E < states.length) (hclose : findClosingBlock h (some L) = some E)
    (hvis : ∀ k b, L < k → k ≤ E → states[k]? = some b →
      b.isVisible = true ∧ b.lineCount = b.layoutLineCount)
    (hafter : ∀ b, states[E + 1]? = some b → b.isVisible = true) :
    isFolded states (some L) = false
    ∧ toggleFold h (toggleFold h states (some L)) (some L) = states := by
  have hs : states[L + 1]? = some (states[L + 1]) := List.getElem?_eq_getElem (by omega)
  have hnf : isFolded states (some L) = false := by
    rw [isFolded_some _ L _ hs, (hvis (L + 1) _ (by omega) (by omega) hs).1]
    rfl
  refine ⟨hnf, ?_⟩
  have hfolded := isFolded_toggleFold h states L E hLE hE hclose hnf
  have hlen := toggleFold_fold_length h states L E hLE hE hclose hnf
  rw [toggleFold_unfold_eq h _ L (by omega) hfolded,
    toggleFold_fold_eq h states L E hLE hE hclose hnf]
  have hA : (states.take (L + 1)).length = L + 1 := by
    simp only [List.length_take]
    omega
  rw [List.append_assoc, List.take_left' hA, List.drop_left' hA,
    unfoldStates_hidden_append _ _ (by
      intro b hb
      rw [List.head?_drop] at hb
      exact hafter b hb)]
  have hmid : ((states.drop (L + 1)).take (E + 1 - (L + 1))).map
      (fun b => { b with isVisible := true, lineCount := b.layoutLineCount })
      = (states.drop (L + 1)).take (E + 1 - (L + 1)) := by
    conv_rhs => rw [← List.map_id ((states.drop (L + 1)).take (E + 1 - (L + 1)))]
    apply List.map_congr_left
    intro b hb
    obtain ⟨i, hi⟩ := List.mem_iff_getElem?.mp hb
    have hi2 : i < E + 1 - (L + 1) := by
      by_contra hc
      rw [List.getElem?_take_eq_none (by omega)] at hi
      exact absurd hi (by simp)
    rw [List.getElem?_take_of_lt hi2, List.getElem?_drop] at hi
    obtain ⟨h1, h2⟩ := hvis (L + 1 + i) b (by omega) (by omega) hi
    cases b with
    | mk v lc llc =>
      simp only at h1 h2
      subst h1 h2
      rfl
  rw [hmid]
  have hsplit : states.drop (L + 1)
      = (states.drop (L + 1)).take (E + 1 - (L + 1)) ++ states.drop (E + 1) := by
    conv_lhs => rw [← List.take_append_drop (E + 1 - (L + 1)) (states.drop (L + 1))]
    rw [List.drop_drop]
    congr 2
    omega
  rw [← hsplit, List.take_append_drop]

/-- Witness of the amended C13: four visible lines, line 0 opening a region
closed by line 2. -/
theorem toggleFold_twice_restores_witness :
    toggleFold (regionFromZero 2)
      (toggleFold (regionFromZero 2) [visibleLine, visibleLine, visibleLine, visibleLine]
        (some 0)) (some 0)
      = [visibleLine, visibleLine, visibleLine, visibleLine] :=
  (toggleFold_twice_restores (regionFromZero 2)
    [visibleLine, visibleLine, visibleLine, visibleLine] 0 2 (by decide) (by decide) (by decide)
    (by
      intro k b h1 h2 hb
      have hk : k = 1 ∨ k = 2 := by omega
      rcases hk with hk | hk <;> subst hk <;>
        · simp only [List.getElem?_cons_succ, List.getElem?_cons_zero, Option.some.injEq] at hb
          subst hb
          exact ⟨rfl, rfl⟩)
    (by
      intro b hb
      simp only [List.getElem?_cons_succ, List.getElem?_cons_zero, Option.some.injEq] at hb
      subst hb
      rfl)).2

/-- C14: for a line `L` that is not folded and whose closing line `E` is valid
and lies after `L`, `isFolded(L)` is true right after `toggleFold(L)` and false
after a second `toggleFold(L)`; and `isFolded` holds of a block exactly when
the block is valid, has a next block, and that next block is hidden. -/
theorem isFolded_after_toggleFold (h : Highlighter) (states : List BlockState) (L E : Nat)
    (hLE : L < E) (hE : E < states.length) (hclose : findClosingBlock h (some L) = some E)
    (hnf : isFolded states (some L) = false) :
    isFolded (toggleFold h states (some L)) (some L) = true
    ∧ isFolded (toggleFold h (toggleFold h states (some L)) (some L)) (some L) = false
    ∧ (∀ (st : List BlockState) (block : BlockRef), isFolded st block = true ↔
        (blockIsValid st block = true ∧ blockIsValid st (blockNext st block) = true
          ∧ blockIsVisible st (blockNext st block) = false)) := by
  have hfolded := isFolded_toggleFold h states L E hLE hE hclose hnf
  have hlen := toggleFold_fold_length h states L E hLE hE hclose hnf
  refine ⟨hfolded, ?_, ?_⟩
  · rw [toggleFold_unfold_eq h _ L (by omega) hfolded]
    generalize hr : toggleFold h states (some L) = r at hlen
    have hX : (r.take (L + 1)).length = L + 1 := by
      simp only [List.length_take]
      omega
    have hY : 0 < (unfoldStates (r.drop (L + 1))).length := by
      rw [unfoldStates_length, List.length_drop]
      omega
    have hidx : (r.take (L + 1) ++ unfoldStates (r.drop (L + 1)))[L + 1]?
        = (unfoldStates (r.drop (L + 1))).head? := by
      rw [List.getElem?_append_right (by omega), hX, Nat.sub_self, List.head?_eq_getElem?]
    cases hh : (unfoldStates (r.drop (L + 1))).head? with
    | none =>
      rw [List.head?_eq_none_iff] at hh
      rw [hh] at hY
      simp at hY
    | some b =>
      rw [hh] at hidx
      rw [isFolded_some _ L b hidx, unfoldStates_head_visible _ b hh]
      rfl
  · intro st block
    unfold isFolded
    simp only
    generalize blockIsValid st block = v1
    generalize blockIsValid st (blockNext st block) = v2
    generalize blockIsVisible st (blockNext st block) = v3
    cases v1 <;> cases v2 <;> cases v3 <;> simp

/-- Witness of C14: four visible lines, line 0 opening a region closed by line
2: folded after one toggle, not folded after two. -/
theorem isFolded_after_toggleFold_witness :
    isFolded (toggleFold (regionFromZero 2)
        [visibleLine, visibleLine, visibleLine, visibleLine] (some 0)) (some 0) = true
    ∧ isFolded (toggleFold (regionFromZero 2) (toggleFold (regionFromZero 2)
        [visibleLine, visibleLine, visibleLine, visibleLine] (some 0)) (some 0)) (some 0)
        = false :=
  ⟨(isFolded_after_toggleFold (regionFromZero 2)
      [visibleLine, visibleLine, visibleLine, visibleLine] 0 2 (by decide) (by decide)
      (by decide) (by decide)).1,
   (isFolded_after_toggleFold (regionFromZero 2)
      [visibleLine, visibleLine, visibleLine, visibleLine] 0 2 (by decide) (by decide)
      (by decide) (by decide)).2.1⟩

/-- C15 fails on the code: `isFoldable` is false for every block, also for
block 0 of which the collaborator reports that it opens a region; a click on
the fold marker of that line leaves the block states as they are, where
`toggleFold` would hide lines 1 and 2. -/
theorem isFoldable_false_example :
    (regionFromZero 2).startsFoldingRegion 0 = true
    ∧ isFoldable (regionFromZero 2) (some 0) = false
    ∧ mouseReleaseEvent (regionFromZero 2) [visibleLine, visibleLine, visibleLine] true (some 0)
        = [visibleLine, visibleLine, visibleLine]
    ∧ toggleFold (regionFromZero 2) [visibleLine, visibleLine, visibleLine] (some 0)
        = [visibleLine, hiddenLine, hiddenLine] := by
  decide

/-! ## Viewport: claims -/

/-- C16 fails on the code: with three lines of height 10 stacked from y = 0 and
the rectangle covering y = 0..5, `getBlocksInRect` returns lines 0 and 1; line 1
has its top at 10, below the bottom 5 of the rectangle, so a line lying
entirely below the rectangle is part of the result. -/
theorem getBlocksInRect_line_below_example :
    QRect.bottom { top := 0, height := 6 } = 5
    ∧ getBlocksInRect { top := 0, height := 6 }
        [{ block := 0, translatedRect := { top := 0, height := 10 } },
         { block := 1, translatedRect := { top := 10, height := 10 } },
         { block := 2, translatedRect := { top := 20, height := 10 } }]
        = [{ block := 0, translatedRect := { top := 0, height := 10 } },
           { block := 1, translatedRect := { top := 10, height := 10 } }]
    ∧ ¬ ((10 : Int) ≤ QRect.bottom { top := 0, height := 6 }) := by
  decide

/-- C17 fails on the code: with two lines of height 10 stacked from y = 0
(extents `[0, 10)` and `[10, 20)`), `blockAtPosition(10)`, on the boundary of
the two lines, returns the upper line 0 and not the lower line 1, and
`blockAtPosition(20)`, the bottom of the last line, returns line 1 and not the
invalid block; only from y = 21 on is the result invalid. -/
theorem blockAtPosition_boundary_example :
    blockAtPosition 0 0 [10, 10] 9 = some 0
    ∧ blockAtPosition 0 0 [10, 10] 10 = some 0
    ∧ blockAtPosition 0 0 [10, 10] 11 = some 1
    ∧ blockAtPosition 0 0 [10, 10] 20 = some 1
    ∧ blockAtPosition 0 0 [10, 10] 21 = none := by
  decide

/-! ## Block operations: claims -/

/-- C18 fails on the code: on the single-line buffer "a" with the cursor at
offset 0, `duplicateSelectedBlocks` leaves the two lines "aa" and "", a merged
line and a spurious empty line at the end; only with the cursor at the end of
the line (offset 1) does it leave "a", "a".  When the span does not reach the
final line the copy is inserted above: "a", "b" with the cursor on line 0
becomes "a", "a", "b". -/
theorem duplicateSelectedBlocks_final_line_example :
    (duplicateSelectedBlocks { text := qstr "a", cursor := { anchor := 0, position := 0 } }).lines
        = [qstr "aa", qstr ""]
    ∧ (duplicateSelectedBlocks
        { text := qstr "a", cursor := { anchor := 1, position := 1 } }).lines
        = [qstr "a", qstr "a"]
    ∧ (duplicateSelectedBlocks
        { text := qstr "a\nb", cursor := { anchor := 0, position := 0 } }).lines
        = [qstr "a", qstr "a", qstr "b"] := by
  decide

/-- C19: for a buffer whose lines are `blocks` and a selection that starts in
line `i` and ends in line `j`, the span `i..j` not being the whole buffer,
`deleteSelectedBlocks` leaves exactly the lines of the buffer without lines
`i..j`: the number of lines falls by `j - i + 1`, and the text is these lines
joined by line feeds, none dangling at the end, also when `j` is the final
line. -/
theorem deleteSelectedBlocks_removes_lines (blocks : List QString) (cur : LiveCursor)
    (i j c1 c2 : Nat)
    (hwf : ∀ l ∈ blocks, chNewline ∉ l) (hij : i ≤ j) (hj : j < blocks.length)
    (hs : cur.selectionStart = QTextDocument.blockStart { blocks := blocks } i + c1)
    (hc1 : c1 ≤ (blocks.getD i []).length)
    (he : cur.selectionEnd = QTextDocument.blockStart { blocks := blocks } j + c2)
    (hc2 : c2 ≤ (blocks.getD j []).length)
    (hnotall : ¬ (i = 0 ∧ j + 1 = blocks.length)) :
    EditBuffer.lines { text := joinLines blocks, cursor := cur } = blocks
    ∧ (deleteSelectedBlocks { text := joinLines blocks, cursor := cur }).lines
        = blocks.take i ++ blocks.drop (j + 1)
    ∧ (deleteSelectedBlocks { text := joinLines blocks, cursor := cur }).lines.length
        + (j - i + 1) = blocks.length
    ∧ (deleteSelectedBlocks { text := joinLines blocks, cursor := cur }).text
        = joinLines (blocks.take i ++ blocks.drop (j + 1))
    ∧ 2 ≤ blocks.length := by
  rw [blockStart_eq_terminated] at hs he
  have htext := deleteSelectedBlocks_text blocks cur i j c1 c2 hwf hij hj hs hc1 he hc2 hnotall
  have hne : blocks ≠ [] := by
    intro h
    rw [h] at hj
    simp at hj
  have hrest : blocks.take i ++ blocks.drop (j + 1) ≠ [] := by
    intro h
    have hl : (blocks.take i ++ blocks.drop (j + 1)).length = 0 := by rw [h]; rfl
    simp only [List.length_append, List.length_take, List.length_drop] at hl
    omega
  have hwf2 : ∀ l ∈ blocks.take i ++ blocks.drop (j + 1), chNewline ∉ l := by
    intro l hl
    rcases List.mem_append.mp hl with h | h
    · exact hwf l ((List.take_sublist _ _).subset h)
    · exact hwf l ((List.drop_sublist _ _).subset h)
  have hlines : (deleteSelectedBlocks { text := joinLines blocks, cursor := cur }).lines
      = blocks.take i ++ blocks.drop (j + 1) := by
    unfold EditBuffer.lines
    rw [htext]
    exact splitRef_joinLines _ hrest hwf2
  refine ⟨splitRef_joinLines blocks hne hwf, hlines, ?_, htext, by omega⟩
  rw [hlines]
  simp only [List.length_append, List.length_take, List.length_drop]
  omega

/-- Witness of C19: in the buffer "a", "b", "c" with the selection inside the
final line (offsets 4 to 5), the final line is deleted and "a", "b" stay. -/
theorem deleteSelectedBlocks_removes_lines_witness :
    (deleteSelectedBlocks
      { text := joinLines [qstr "a", qstr "b", qstr "c"],
        cursor := { anchor := 4, position := 5 } }).lines = [qstr "a", qstr "b"]
    ∧ (deleteSelectedBlocks
      { text := joinLines [qstr "a", qstr "b", qstr "c"],
        cursor := { anchor := 4, position := 5 } }).text = qstr "a\nb" := by
  have h := deleteSelectedBlocks_removes_lines [qstr "a", qstr "b", qstr "c"]
    { anchor := 4, position := 5 } 2 2 0 1 (by decide) (by decide) (by decide) (by decide)
    (by decide) (by decide) (by decide) (by decide)
  refine ⟨?_, ?_⟩
  · rw [h.2.1]
    decide
  · rw [h.2.2.2.1]
    decide

/-- C20 fails on the code: on the buffer "a", "b" with the cursor on the final
line (offset 2), `moveSelectedBlocksUp` leaves the three lines "b", "a", "": the
block it appends at the end is not removed and the line count rises by one.
When the span does not reach the final line the count is kept ("a", "b", "c"
with the cursor on line 1 becomes "b", "a", "c"), and on line 0 nothing
changes. -/
theorem moveSelectedBlocksUp_final_line_example :
    (moveSelectedBlocksUp
        { text := qstr "a\nb", cursor := { anchor := 2, position := 2 } }).lines
        = [qstr "b", qstr "a", qstr ""]
    ∧ (moveSelectedBlocksUp
        { text := qstr "a\nb\nc", cursor := { anchor := 2, position := 2 } }).lines
        = [qstr "b", qstr "a", qstr "c"]
    ∧ moveSelectedBlocksUp { text := qstr "a\nb", cursor := { anchor := 0, position := 0 } }
        = { text := qstr "a\nb", cursor := { anchor := 0, position := 0 } } := by
  decide

/-- C21 fails on the code when line `j + 1` is the final line.  For a buffer
whose lines are `blocks` and a selection that starts in line `i` and ends in
line `j`: with two lines or more below line `j`, `moveSelectedBlocksDown`
moves line `j + 1` to right above line `i` and keeps the number of lines; with
fewer, it leaves the buffer and the cursor as they are, when `j` is the final
line and also when `j + 1` is. -/
theorem moveSelectedBlocksDown_lines (blocks : List QString) (cur : LiveCursor)
    (i j c1 c2 : Nat)
    (hwf : ∀ l ∈ blocks, chNewline ∉ l) (hps : ∀ l ∈ blocks, chParagraphSeparator ∉ l)
    (hij : i ≤ j) (hj : j < blocks.length)
    (hs : cur.selectionStart = QTextDocument.blockStart { blocks := blocks } i + c1)
    (hc1 : c1 ≤ (blocks.getD i []).length)
    (he : cur.selectionEnd = QTextDocument.blockStart { blocks := blocks } j + c2)
    (hc2 : c2 ≤ (blocks.getD j []).length) :
    EditBuffer.lines { text := joinLines blocks, cursor := cur } = blocks
    ∧ (j + 2 < blocks.length →
        (moveSelectedBlocksDown { text := joinLines blocks, cursor := cur }).lines
          = blocks.take i ++ [blocks.getD (j + 1) []]
              ++ ((blocks.take (j + 1)).drop i ++ blocks.drop (j + 2))
        ∧ (moveSelectedBlocksDown { text := joinLines blocks, cursor := cur }).lines.length
          = blocks.length)
    ∧ (¬ j + 2 < blocks.length →
        moveSelectedBlocksDown { text := joinLines blocks, cursor := cur }
          = { text := joinLines blocks, cursor := cur }) := by
  rw [blockStart_eq_terminated] at hs he
  have hne : blocks ≠ [] := by
    intro h
    rw [h] at hj
    simp at hj
  refine ⟨splitRef_joinLines blocks hne hwf, ?_, ?_⟩
  · intro hj2
    have htext := moveSelectedBlocksDown_text blocks cur i j c1 c2 hwf hps hij hj2 hs hc1 he hc2
    have hrest : blocks.take i ++ [blocks.getD (j + 1) []]
        ++ ((blocks.take (j + 1)).drop i ++ blocks.drop (j + 2)) ≠ [] := by
      simp
    have hwf2 : ∀ l ∈ blocks.take i ++ [blocks.getD (j + 1) []]
        ++ ((blocks.take (j + 1)).drop i ++ blocks.drop (j + 2)), chNewline ∉ l := by
      intro l hl
      simp only [List.mem_append, List.mem_singleton] at hl
      rcases hl with (h | h) | (h | h)
      · exact hwf l ((List.take_sublist _ _).subset h)
      · rw [h]
        exact hwf _ (getD_mem blocks (j + 1) (by omega))
      · exact hwf l ((List.take_sublist _ _).subset ((List.drop_sublist _ _).subset h))
      · exact hwf l ((List.drop_sublist _ _).subset h)
    have hlines : (moveSelectedBlocksDown { text := joinLines blocks, cursor := cur }).lines
        = blocks.take i ++ [blocks.getD (j + 1) []]
            ++ ((blocks.take (j + 1)).drop i ++ blocks.drop (j + 2)) := by
      unfold EditBuffer.lines
      rw [htext]
      exact splitRef_joinLines _ hrest hwf2
    refine ⟨hlines, ?_⟩
    rw [hlines]
    simp only [List.length_append, List.length_take, List.length_drop, List.length_singleton]
    omega
  · intro hlast
    exact moveSelectedBlocksDown_noop blocks cur j c2 hwf hj he hc2 hlast

/-- Witness of C21 at the failing input: on the buffer "a", "b" with the cursor
on line 0, line 1 is the final line and `moveSelectedBlocksDown` leaves "a",
"b", not "b", "a"; on "a", "b", "c" with the cursor on line 0 it gives "b", "a",
"c". -/
theorem moveSelectedBlocksDown_lines_witness :
    (moveSelectedBlocksDown
        { text := qstr "a\nb", cursor := { anchor := 0, position := 0 } }).lines
      = [qstr "a", qstr "b"]
    ∧ (moveSelectedBlocksDown
        { text := qstr "a\nb", cursor := { anchor := 0, position := 0 } }).lines
      ≠ [qstr "b", qstr "a"]
    ∧ (moveSelectedBlocksDown
        { text := qstr "a\nb\nc", cursor := { anchor := 0, position := 0 } }).lines
      = [qstr "b", qstr "a", qstr "c"] := by
  have h2 := moveSelectedBlocksDown_lines [qstr "a", qstr "b"]
    { anchor := 0, position := 0 } 0 0 0 0 (by decide) (by decide) (by decide) (by decide)
    (by decide) (by decide) (by decide) (by decide)
  have h3 := moveSelectedBlocksDown_lines [qstr "a", qstr "b", qstr "c"]
    { anchor := 0, position := 0 } 0 0 0 0 (by decide) (by decide) (by decide) (by decide)
    (by decide) (by decide) (by decide) (by decide)
  have e2 : joinLines [qstr "a", qstr "b"] = qstr "a\nb" := by decide
  have e3 : joinLines [qstr "a", qstr "b", qstr "c"] = qstr "a\nb\nc" := by decide
  rw [e2] at h2
  rw [e3] at h3
  refine ⟨?_, ?_, ?_⟩
  · rw [h2.2.2 (by decide)]
    exact h2.1
  · rw [h2.2.2 (by decide), h2.1]
    decide
  · rw [(h3.2.1 (by decide)).1]
    decide

/-! ## Search: wrapped retry and failed search -/

/-- C22 fails on the code: the wrapped retry calls the plain-text overload of
the document search.  On the buffer "7 \d" with the cursor after the digit,
`find` of the term `\d` forward with wrap-around finds nothing from the cursor
on, retries from the region start and selects the characters `\d` at offsets 2
to 4, which the regular expression `\d` does not match; a retry with the
regular expression would select the digit at offsets 0 to 1.  Without
wrap-around the call fails. -/
theorem find_retry_plain_text_example :
    digitEdit.find (qtSearch (qstr "7 \\d")) (qstr "\\d") 0 (-1) forwardFlags true
      = (true, { digitEdit with anchor := 2, position := 4, m_findTermSelected := true })
    ∧ (digitEdit.find (qtSearch (qstr "7 \\d")) (qstr "\\d") 0 (-1) forwardFlags true).2.selectedText
      = qstr "\\d"
    ∧ regexMatches (qstr "\\d") (qstr "\\d") = false
    ∧ regexFind (qstr "7 \\d") (qstr "\\d") 1 forwardFlags = .null
    ∧ literalFind (qstr "7 \\d") (qstr "\\d") 0 forwardFlags = .cursor 2 4
    ∧ regexFind (qstr "7 \\d") (qstr "\\d") 0 forwardFlags = .cursor 0 1
    ∧ regexMatches (qstr "\\d") (qstr "7") = true
    ∧ (digitEdit.find (qtSearch (qstr "7 \\d")) (qstr "\\d") 0 (-1) forwardFlags false).1
      = false := by
  decide

/-- C23: whenever `find` returns false, whatever the two document searches
return, the term, the region, the flags and `wrapAround`, the editor after the
call is the editor before it: the same document, text cursor, selection and
`m_findTermSelected`; the clamp into the region is made on a copy of the
cursor. -/
theorem find_false_keeps_state (e : TextEdit) (q : DocumentSearch) (term : QString)
    (regionStart regionEnd : Int) (flags : FindFlags) (wrapAround : Bool)
    (h : (e.find q term regionStart regionEnd flags wrapAround).1 = false) :
    (e.find q term regionStart regionEnd flags wrapAround).2 = e
    ∧ (e.find q term regionStart regionEnd flags wrapAround).2.textCursor = e.textCursor
    ∧ (e.find q term regionStart regionEnd flags wrapAround).2.selectedText = e.selectedText
    ∧ (e.find q term regionStart regionEnd flags wrapAround).2.m_findTermSelected
        = e.m_findTermSelected := by
  have key : (e.find q term regionStart regionEnd flags wrapAround).2 = e := by
    unfold TextEdit.find at h ⊢
    simp only at h ⊢
    split_ifs at h ⊢ <;> rfl
  rw [key]
  exact ⟨rfl, rfl, rfl, rfl⟩

/-- Witness of C23: in "abcabcabc" with the characters 7..9 selected and the
flag set, a wrapped search for "abc" in the region 1..5 starts from the cursor
clamped to 5, meets only the occurrences at 6..9 and 3..6, which leave the
region, and returns false; selection and flag are as before. -/
theorem find_false_keeps_state_witness :
    (selectedTailEdit.find (literalSearch abcText) abcTerm 1 5 forwardFlags true).1 = false
    ∧ (selectedTailEdit.find (literalSearch abcText) abcTerm 1 5 forwardFlags true).2
        = selectedTailEdit
    ∧ (selectedTailEdit.find (literalSearch abcText) abcTerm 1 5 forwardFlags true).2.textCursor
        = .cursor 7 9
    ∧ (selectedTailEdit.find (literalSearch abcText) abcTerm 1 5
        forwardFlags true).2.m_findTermSelected = true :=
  ⟨by decide,
    (find_false_keeps_state selectedTailEdit (literalSearch abcText) abcTerm 1 5 forwardFlags true
      (by decide)).1,
    by decide, by decide⟩

/-! ## Line transforms: column claims -/

end ote
